import Mathlib

/-!
# Verification of the CapAssigner core algorithms

A shallow embedding of the core of the CapAssigner repository
(`capassigner/core/{sp_structures, sp_enumeration, metrics, graphs,
heuristics, sp_graph_exhaustive}.py`) together with proofs about it.

Modelling conventions:
* Python floats are modelled as exact rationals (`ℚ`); the claims settled
  here are structural (counts, sortedness, symmetry, error propagation)
  and are stated in exact arithmetic.
* Python exceptions are modelled by `Except PyError`; the three exception
  classes that the code distinguishes (`ValueError`, `ZeroDivisionError`,
  `TypeError`) are separate constructors so `try/except` clauses that
  catch only some of them can be embedded faithfully.
* `numpy.random.Generator` is modelled as an abstract deterministic state
  machine (`RNGOps`); all theorems about the heuristic engine hold for
  every instantiation of the state machine, hence in particular for the
  actual PCG64 generator.
* The floating-point linear solve inside `calculate_graph_ceq`
  (lines 203-251 of `graphs.py`) is abstracted as a function parameter
  `solver`; every code path before it is embedded exactly.
-/

/-- The Python exception classes distinguished by the embedded code. -/
inductive PyError where
  | valueError (msg : String)
  | zeroDivisionError (msg : String)
  | typeError (msg : String)
deriving DecidableEq, Repr

/-- Reduction of the `Except` monad bind on a success value. -/
theorem exceptBind_ok {ε α β : Type} (a : α) (g : α → Except ε β) :
    (Except.ok a >>= g : Except ε β) = g a := rfl

/-- Reduction of the `Except` monad bind on an error value. -/
theorem exceptBind_error {ε α β : Type} (e : ε) (g : α → Except ε β) :
    (Except.error e >>= g : Except ε β) = Except.error e := rfl

instance exceptDecEq {ε α : Type} [DecidableEq ε] [DecidableEq α] :
    DecidableEq (Except ε α)
  | .error e, .error e' => decidable_of_iff (e = e') (by simp)
  | .error _, .ok _ => isFalse (by simp)
  | .ok _, .error _ => isFalse (by simp)
  | .ok a, .ok b => decidable_of_iff (a = b) (by simp)

/-! ## `sp_structures.py`: the SP tree model -/

/-- `SPNode = Union[Leaf, Series, Parallel]` from `sp_structures.py`.
`Leaf` carries the capacitor index and the cached value. -/
inductive SPNode where
  | Leaf (capacitor_index : Nat) (value : ℚ)
  | Series (left right : SPNode)
  | Parallel (left right : SPNode)
deriving DecidableEq, Repr

namespace SPNode

/-- Number of nodes of an SP tree (used for termination measures and for
the well-formedness claim C7). -/
def numNodes : SPNode → Nat
  | .Leaf _ _ => 1
  | .Series l r => 1 + numNodes l + numNodes r
  | .Parallel l r => 1 + numNodes l + numNodes r

/-- The list of leaf capacitor indices of an SP tree, left to right. -/
def leafIndices : SPNode → List Nat
  | .Leaf i _ => [i]
  | .Series l r => leafIndices l ++ leafIndices r
  | .Parallel l r => leafIndices l ++ leafIndices r

/-- Number of `Leaf` nodes of an SP tree. -/
def numLeaves : SPNode → Nat
  | .Leaf _ _ => 1
  | .Series l r => numLeaves l + numLeaves r
  | .Parallel l r => numLeaves l + numLeaves r

/-- All leaf values of an SP tree. -/
def leafValues : SPNode → List ℚ
  | .Leaf _ v => [v]
  | .Series l r => leafValues l ++ leafValues r
  | .Parallel l r => leafValues l ++ leafValues r

theorem one_le_numNodes (n : SPNode) : 1 ≤ n.numNodes := by
  cases n <;> simp [numNodes] <;> omega

end SPNode

/-- `calculate_sp_ceq` from `sp_structures.py` (lines 79-111).
`Leaf` returns its cached value; `Series` first raises
`ZeroDivisionError` when either child evaluates to `0` (the explicit
check at line 101), and otherwise evaluates
`1.0 / (1.0 / c_left + 1.0 / c_right)` — in Python this division itself
raises `ZeroDivisionError` when `1/c_left + 1/c_right == 0`, which is
modelled by the second guard; `Parallel` returns the sum. -/
def calculate_sp_ceq : SPNode → Except PyError ℚ
  | .Leaf _ v => .ok v
  | .Series l r => do
    let c_left ← calculate_sp_ceq l
    let c_right ← calculate_sp_ceq r
    if c_left = 0 ∨ c_right = 0 then
      .error (.zeroDivisionError
        "Cannot compute series capacitance with zero-value capacitor")
    else if 1 / c_left + 1 / c_right = 0 then
      .error (.zeroDivisionError "float division by zero")
    else
      .ok (1 / (1 / c_left + 1 / c_right))
  | .Parallel l r => do
    let c_left ← calculate_sp_ceq l
    let c_right ← calculate_sp_ceq r
    .ok (c_left + c_right)

/-- `sp_node_to_expression` from `sp_structures.py` (lines 114-151).
Python's `capacitor_labels[node.capacitor_index]` is modelled with a
total lookup (`getD`); the enumerator always produces in-range indices. -/
def sp_node_to_expression (node : SPNode) (capacitor_labels : List String) : String :=
  match node with
  | .Leaf i _ => capacitor_labels.getD i ""
  | .Series l r =>
    "(" ++ sp_node_to_expression l capacitor_labels ++ "+"
        ++ sp_node_to_expression r capacitor_labels ++ ")"
  | .Parallel l r =>
    "(" ++ sp_node_to_expression l capacitor_labels ++ "||"
        ++ sp_node_to_expression r capacitor_labels ++ ")"

/-- The operation type passed as `op_type` to `_collect_operands`
(the Python code passes the class object `Series` or `Parallel`). -/
inductive OpType where
  | series
  | parallel
deriving DecidableEq, Repr

/-- `isinstance(node, op_type)` for the two operation classes. -/
def SPNode.matchesOp : SPNode → OpType → Bool
  | .Series _ _, .series => true
  | .Parallel _ _, .parallel => true
  | _, _ => false

/-- Termination measure for the mutual recursion between
`_collect_operands` and `sp_node_to_normalized_expression`. -/
def collectMeasure (node : SPNode) (op : OpType) : Nat :=
  3 * node.numNodes + (if node.matchesOp op then 0 else 2)

theorem collectMeasure_bounds (n : SPNode) (op : OpType) :
    3 * n.numNodes ≤ collectMeasure n op ∧
      collectMeasure n op ≤ 3 * n.numNodes + 2 := by
  unfold collectMeasure; split <;> omega

theorem collectMeasure_of_not_match {n : SPNode} {op : OpType}
    (h : n.matchesOp op = false) : collectMeasure n op = 3 * n.numNodes + 2 := by
  simp [collectMeasure, h]

theorem collectMeasure_of_match {n : SPNode} {op : OpType}
    (h : n.matchesOp op = true) : collectMeasure n op = 3 * n.numNodes := by
  simp [collectMeasure, h]

mutual

/-- `_collect_operands` from `sp_structures.py` (lines 154-175): flattens
consecutive same-type operations (the `isinstance(node, op_type)` test is
rendered as a match on the node constructor and the operation tag),
normalizing everything else as a single operand. -/
def _collect_operands (node : SPNode) (op_type : OpType)
    (capacitor_labels : List String) : List String :=
  match node, op_type with
  | .Series l r, .series =>
    _collect_operands l .series capacitor_labels
      ++ _collect_operands r .series capacitor_labels
  | .Parallel l r, .parallel =>
    _collect_operands l .parallel capacitor_labels
      ++ _collect_operands r .parallel capacitor_labels
  | .Leaf i v, op =>
    [sp_node_to_normalized_expression (.Leaf i v) capacitor_labels]
  | .Series l r, .parallel =>
    [sp_node_to_normalized_expression (.Series l r) capacitor_labels]
  | .Parallel l r, .series =>
    [sp_node_to_normalized_expression (.Parallel l r) capacitor_labels]
termination_by collectMeasure node op_type
decreasing_by
  all_goals
    first
    | -- recursive `_collect_operands` call on a child
      (have hb1 := collectMeasure_bounds l OpType.series
       have hb2 := collectMeasure_bounds r OpType.series
       have hb3 := collectMeasure_bounds l OpType.parallel
       have hb4 := collectMeasure_bounds r OpType.parallel
       have hm : collectMeasure (SPNode.Series l r) OpType.series
           = 3 * (SPNode.Series l r).numNodes := collectMeasure_of_match rfl
       have hm2 : collectMeasure (SPNode.Parallel l r) OpType.parallel
           = 3 * (SPNode.Parallel l r).numNodes := collectMeasure_of_match rfl
       simp only [SPNode.numNodes] at *
       omega)
    | -- `sp_node_to_normalized_expression` call on a non-matching node
      (cases op <;> simp [collectMeasure, SPNode.matchesOp, SPNode.numNodes]
        <;> omega)
    | (simp [collectMeasure, SPNode.matchesOp, SPNode.numNodes] <;> omega)
    | (simp [collectMeasure, SPNode.matchesOp, SPNode.numNodes]; omega)

/-- `sp_node_to_normalized_expression` from `sp_structures.py`
(lines 178-224): flattens same-type chains, sorts the operand strings
(Python's stable `list.sort()` is modelled by `List.insertionSort`,
which computes the same unique sorted list), and joins them. -/
def sp_node_to_normalized_expression (node : SPNode)
    (capacitor_labels : List String) : String :=
  match node with
  | .Leaf i _ => capacitor_labels.getD i ""
  | .Series l r =>
    let operands := _collect_operands (.Series l r) .series capacitor_labels
    let operands := operands.insertionSort (· ≤ ·)
    "(" ++ String.intercalate "+" operands ++ ")"
  | .Parallel l r =>
    let operands := _collect_operands (.Parallel l r) .parallel capacitor_labels
    let operands := operands.insertionSort (· ≤ ·)
    "(" ++ String.intercalate "||" operands ++ ")"
termination_by 3 * node.numNodes + 1
decreasing_by
  all_goals
    simp [collectMeasure, SPNode.matchesOp, SPNode.numNodes] <;> omega

end

/-! ## Helper lemmas for `_collect_operands` and sorting -/

theorem collect_series (l r : SPNode) (labels : List String) :
    _collect_operands (.Series l r) .series labels
      = _collect_operands l .series labels ++ _collect_operands r .series labels := by
  rw [_collect_operands]

theorem collect_parallel (l r : SPNode) (labels : List String) :
    _collect_operands (.Parallel l r) .parallel labels
      = _collect_operands l .parallel labels
          ++ _collect_operands r .parallel labels := by
  rw [_collect_operands]

/-- Sorting two permutations of the same multiset of strings yields the
same list (since `≤` on `String` is a total antisymmetric order). -/
theorem insertionSort_eq_of_perm {l₁ l₂ : List String} (h : l₁.Perm l₂) :
    l₁.insertionSort (· ≤ ·) = l₂.insertionSort (· ≤ ·) :=
  List.eq_of_perm_of_sorted
    ((List.perm_insertionSort _ l₁).trans (h.trans (List.perm_insertionSort _ l₂).symm))
    (List.sorted_insertionSort _ l₁) (List.sorted_insertionSort _ l₂)

theorem normalized_series (l r : SPNode) (labels : List String) :
    sp_node_to_normalized_expression (.Series l r) labels
      = "(" ++ String.intercalate "+"
          ((_collect_operands (.Series l r) .series labels).insertionSort (· ≤ ·))
          ++ ")" := by
  rw [sp_node_to_normalized_expression]

theorem normalized_parallel (l r : SPNode) (labels : List String) :
    sp_node_to_normalized_expression (.Parallel l r) labels
      = "(" ++ String.intercalate "||"
          ((_collect_operands (.Parallel l r) .parallel labels).insertionSort (· ≤ ·))
          ++ ")" := by
  rw [sp_node_to_normalized_expression]

/-- C6: the canonical (normalized) expression is invariant under
commutativity and associativity of `Series` and `Parallel`: swapping the
two children, or re-associating a chain of the same operator, yields the
identical canonical string, for every label list. -/
theorem canonical_comm_assoc (labels : List String) (a b c : SPNode) :
    sp_node_to_normalized_expression (.Series a b) labels
        = sp_node_to_normalized_expression (.Series b a) labels ∧
    sp_node_to_normalized_expression (.Parallel a b) labels
        = sp_node_to_normalized_expression (.Parallel b a) labels ∧
    sp_node_to_normalized_expression (.Series (.Series a b) c) labels
        = sp_node_to_normalized_expression (.Series a (.Series b c)) labels ∧
    sp_node_to_normalized_expression (.Parallel (.Parallel a b) c) labels
        = sp_node_to_normalized_expression (.Parallel a (.Parallel b c)) labels := by
  refine ⟨?_, ?_, ?_, ?_⟩
  · rw [normalized_series, normalized_series, collect_series, collect_series,
      insertionSort_eq_of_perm (List.perm_append_comm)]
  · rw [normalized_parallel, normalized_parallel, collect_parallel, collect_parallel,
      insertionSort_eq_of_perm (List.perm_append_comm)]
  · rw [normalized_series, normalized_series, collect_series, collect_series,
      collect_series, collect_series, List.append_assoc]
  · rw [normalized_parallel, normalized_parallel, collect_parallel, collect_parallel,
      collect_parallel, collect_parallel, List.append_assoc]

/-! ## C2: behaviour of `calculate_sp_ceq` -/

/-- C2 counterexample: the claim says a divide-by-zero failure is raised
*exactly* when either child of a `Series` node evaluates to `0`.  On the
tree `Series(Leaf(0, 1), Leaf(1, -1))` both children evaluate to nonzero
values, yet the evaluation of `1.0 / (1.0/1 + 1.0/(-1))` divides by zero
(Python raises `ZeroDivisionError` at line 105 of `sp_structures.py`). -/
theorem calculate_sp_ceq_fails_without_zero_child :
    calculate_sp_ceq (.Series (.Leaf 0 1) (.Leaf 1 (-1)))
        = .error (.zeroDivisionError "float division by zero") ∧
    calculate_sp_ceq (.Leaf 0 1) = .ok 1 ∧
    calculate_sp_ceq (.Leaf 1 (-1)) = .ok (-1) ∧
    (1 : ℚ) ≠ 0 ∧ (-1 : ℚ) ≠ 0 := by
  refine ⟨?_, rfl, rfl, by norm_num, by norm_num⟩
  norm_num [calculate_sp_ceq, exceptBind_ok]

/-- C2 (amended): `calculate_sp_ceq` returns the cached value on a
`Leaf` and the sum of the children on a `Parallel` node; on a `Series`
node it raises a divide-by-zero failure when either child evaluates to
`0` *or* when the children's reciprocals sum to `0` (only possible with
a non-positive leaf value), and otherwise returns
`1 / (1/left + 1/right)`.  On trees whose leaf values are all positive —
the validated input domain — evaluation always succeeds with a positive
result, so no failure ever occurs there. -/
theorem calculate_sp_ceq_spec :
    (∀ (i : Nat) (v : ℚ), calculate_sp_ceq (.Leaf i v) = .ok v) ∧
    (∀ (l r : SPNode) (cl cr : ℚ), calculate_sp_ceq l = .ok cl →
      calculate_sp_ceq r = .ok cr →
      calculate_sp_ceq (.Parallel l r) = .ok (cl + cr)) ∧
    (∀ (l r : SPNode) (cl cr : ℚ), calculate_sp_ceq l = .ok cl →
      calculate_sp_ceq r = .ok cr →
      ((cl = 0 ∨ cr = 0) →
        calculate_sp_ceq (.Series l r) = .error (.zeroDivisionError
          "Cannot compute series capacitance with zero-value capacitor")) ∧
      (cl ≠ 0 → cr ≠ 0 → 1 / cl + 1 / cr = 0 →
        calculate_sp_ceq (.Series l r)
          = .error (.zeroDivisionError "float division by zero")) ∧
      (cl ≠ 0 → cr ≠ 0 → 1 / cl + 1 / cr ≠ 0 →
        calculate_sp_ceq (.Series l r) = .ok (1 / (1 / cl + 1 / cr)))) ∧
    (∀ t : SPNode, (∀ v ∈ t.leafValues, 0 < v) →
      ∃ c, calculate_sp_ceq t = .ok c ∧ 0 < c) := by
  refine ⟨fun i v => rfl, ?_, ?_, ?_⟩
  · intro l r cl cr hl hr
    simp [calculate_sp_ceq, hl, hr, exceptBind_ok]
  · intro l r cl cr hl hr
    refine ⟨fun h0 => ?_, fun h1 h2 h3 => ?_, fun h1 h2 h3 => ?_⟩
    · simp [calculate_sp_ceq, hl, hr, h0, exceptBind_ok]
    · rw [one_div, one_div] at h3
      simp [calculate_sp_ceq, hl, hr, h1, h2, h3, exceptBind_ok]
    · rw [one_div, one_div] at h3
      simp [calculate_sp_ceq, hl, hr, h1, h2, h3, exceptBind_ok, one_div]
  · intro t
    induction t with
    | Leaf i v =>
      intro h
      exact ⟨v, rfl, h v (by simp [SPNode.leafValues])⟩
    | Series l r ihl ihr =>
      intro h
      obtain ⟨cl, hl, hlpos⟩ := ihl fun v hv =>
        h v (by simp [SPNode.leafValues]; exact Or.inl hv)
      obtain ⟨cr, hr, hrpos⟩ := ihr fun v hv =>
        h v (by simp [SPNode.leafValues]; exact Or.inr hv)
      have hsum : 0 < 1 / cl + 1 / cr := by positivity
      refine ⟨1 / (1 / cl + 1 / cr), ?_, by positivity⟩
      have hsum' : ¬(cl⁻¹ + cr⁻¹ = 0) := by simpa [one_div] using hsum.ne'
      simp [calculate_sp_ceq, hl, hr, hlpos.ne', hrpos.ne', hsum', exceptBind_ok,
        one_div]
    | Parallel l r ihl ihr =>
      intro h
      obtain ⟨cl, hl, hlpos⟩ := ihl fun v hv =>
        h v (by simp [SPNode.leafValues]; exact Or.inl hv)
      obtain ⟨cr, hr, hrpos⟩ := ihr fun v hv =>
        h v (by simp [SPNode.leafValues]; exact Or.inr hv)
      exact ⟨cl + cr, by simp [calculate_sp_ceq, hl, hr, exceptBind_ok], by positivity⟩

/-- Witness for C2 (amended), at concrete trees. -/
theorem calculate_sp_ceq_spec_witness :
    calculate_sp_ceq (.Parallel (.Leaf 0 2) (.Leaf 1 3)) = .ok 5 ∧
    calculate_sp_ceq (.Series (.Leaf 0 2) (.Leaf 1 2)) = .ok 1 ∧
    (∃ c, calculate_sp_ceq (.Series (.Leaf 0 2) (.Leaf 1 2)) = .ok c ∧ 0 < c) := by
  refine ⟨?_, ?_, ?_⟩
  · have h := calculate_sp_ceq_spec.2.1 (.Leaf 0 2) (.Leaf 1 3) 2 3 rfl rfl
    rw [h]; norm_num
  · have h := (calculate_sp_ceq_spec.2.2.1 (.Leaf 0 2) (.Leaf 1 2) 2 2 rfl rfl).2.2
      (by norm_num) (by norm_num) (by norm_num)
    rw [h]; norm_num
  · exact calculate_sp_ceq_spec.2.2.2 (.Series (.Leaf 0 2) (.Leaf 1 2))
      (by intro v hv; simp [SPNode.leafValues] at hv; norm_num [hv])

/-! ## `sp_enumeration.py`: SP topology enumeration

The Python `_enumerate_recursive` recurses on strictly shorter slices of
`subset_list` (`subset_list[:i]` and `subset_list[i:]` with
`1 <= i <= len-1`); the embedding threads an explicit fuel argument equal
to the list length, which makes the recursion structural (the memoization
cache of the source only avoids recomputation of the same pure function
and does not affect the returned value). -/

/-- Recursion kernel of `_enumerate_recursive` (lines 123-168 of
`sp_enumeration.py`): a singleton subset yields a `Leaf`; a larger subset
is split at every position `i in range(1, len(subset_list))` into prefix
and suffix, and every pair of sub-topologies is combined with both
`Series` and `Parallel`. -/
def enumAux (capacitors : List ℚ) (fuel : Nat) (l : List Nat) : List SPNode :=
  match l, fuel with
  | [], _ => []
  | [idx], _ => [.Leaf idx (capacitors.getD idx 0)]
  | _ :: _ :: _, 0 => []
  | x :: y :: rest, f + 1 =>
    let subset_list := x :: y :: rest
    (List.range' 1 (subset_list.length - 1)).flatMap fun i =>
      (enumAux capacitors f (subset_list.take i)).flatMap fun left =>
        (enumAux capacitors f (subset_list.drop i)).flatMap fun right =>
          [.Series left right, .Parallel left right]

/-- `_enumerate_recursive` of `sp_enumeration.py`, with the fuel
instantiated to the (sufficient) list length. -/
def _enumerate_recursive (capacitors : List ℚ) (subset_list : List Nat) :
    List SPNode :=
  enumAux capacitors subset_list.length subset_list

/-- `enumerate_sp_topologies` from `sp_enumeration.py` (lines 74-181):
validation of the input list followed by the recursive enumeration over
the full index set (the progress callback performs no computation). -/
def enumerate_sp_topologies (capacitors : List ℚ) :
    Except PyError (List SPNode) :=
  if capacitors.isEmpty then
    .error (.valueError "Cannot enumerate topologies with zero capacitors")
  else if capacitors.any (fun c => decide (c ≤ 0)) then
    .error (.valueError "All capacitor values must be positive")
  else
    .ok (_enumerate_recursive capacitors (List.range capacitors.length))

/-- The number of trees produced by `enumAux` as a function of the subset
size alone: `T(1) = 1`, `T(n) = Σ_{i=1}^{n-1} 2·T(i)·T(n-i)`. -/
def sp_countAux (fuel n : Nat) : Nat :=
  match n, fuel with
  | 0, _ => 0
  | 1, _ => 1
  | _ + 2, 0 => 0
  | m + 2, f + 1 =>
    ((List.range' 1 (m + 1)).map
      (fun i => 2 * sp_countAux f i * sp_countAux f (m + 2 - i))).sum

/-- The tree count for a subset of `n` capacitor indices. -/
def sp_count (n : Nat) : Nat := sp_countAux n n

theorem length_pair_flatMap (a : SPNode) (rights : List SPNode) :
    (rights.flatMap fun right =>
      [SPNode.Series a right, SPNode.Parallel a right]).length
      = 2 * rights.length := by
  induction rights with
  | nil => rfl
  | cons b bs ih =>
    simp only [List.flatMap_cons, List.length_append, ih, List.length_cons,
      List.length_nil]
    omega

theorem length_combine (lefts rights : List SPNode) :
    (lefts.flatMap fun left => rights.flatMap fun right =>
      [SPNode.Series left right, SPNode.Parallel left right]).length
      = 2 * lefts.length * rights.length := by
  induction lefts with
  | nil => simp
  | cons a as ih =>
    simp only [List.flatMap_cons, List.length_append, ih,
      length_pair_flatMap, List.length_cons]
    ring

theorem enumAux_length (capacitors : List ℚ) :
    ∀ (fuel : Nat) (l : List Nat), l.length ≤ fuel →
      (enumAux capacitors fuel l).length = sp_countAux fuel l.length := by
  intro fuel
  induction fuel with
  | zero =>
    intro l hl
    match l, hl with
    | [], _ => rfl
  | succ f ih =>
    intro l hl
    match l with
    | [] => rfl
    | [idx] => rfl
    | x :: y :: rest =>
      simp only [enumAux]
      have hlen : (x :: y :: rest).length = rest.length + 2 := by simp
      rw [hlen, sp_countAux]
      have h21 : rest.length + 2 - 1 = rest.length + 1 := by omega
      rw [h21, List.length_flatMap]
      congr 1
      apply List.map_congr_left
      intro i hi
      obtain ⟨k, hk, hik⟩ := List.mem_range'.mp hi
      have hi1 : 1 ≤ i := by omega
      have hi2 : i ≤ rest.length + 1 := by omega
      have htake : ((x :: y :: rest).take i).length = i := by
        simp [hlen]; omega
      have hdrop : ((x :: y :: rest).drop i).length = rest.length + 2 - i := by
        simp [hlen]
      have ihl := ih ((x :: y :: rest).take i) (by rw [htake]; omega)
      have ihr := ih ((x :: y :: rest).drop i) (by rw [hdrop]; omega)
      simp only [Function.comp_apply, length_combine, ihl, ihr, htake, hdrop]

theorem _enumerate_recursive_length (capacitors : List ℚ) (l : List Nat) :
    (_enumerate_recursive capacitors l).length = sp_count l.length := by
  rw [_enumerate_recursive, enumAux_length capacitors l.length l le_rfl, sp_count]

/-- C1: for 2-8 positive capacitor values, `enumerate_sp_topologies`
returns the documented pre-deduplication number of trees:
N=2 gives 2, N=3 gives 8, N=4 gives 40, N=5 gives 224, N=6 gives 1344,
N=7 gives 8448 and N=8 gives 54912. -/
theorem enumerate_sp_topologies_counts (capacitors : List ℚ)
    (h2 : 2 ≤ capacitors.length) (h8 : capacitors.length ≤ 8)
    (hpos : ∀ c ∈ capacitors, 0 < c) :
    ∃ ts, enumerate_sp_topologies capacitors = .ok ts ∧
      ts.length =
        [2, 8, 40, 224, 1344, 8448, 54912].getD (capacitors.length - 2) 0 := by
  have hne : capacitors.isEmpty = false := by
    cases capacitors
    · simp at h2
    · simp
  have hany : capacitors.any (fun c => decide (c ≤ 0)) = false := by
    rw [List.any_eq_false]
    intro c hc
    simpa using (hpos c hc).not_le
  refine ⟨_enumerate_recursive capacitors (List.range capacitors.length), ?_, ?_⟩
  · rw [enumerate_sp_topologies, hne]
    simp [hany]
  · rw [_enumerate_recursive_length, List.length_range]
    generalize hgen : capacitors.length = n at h2 h8
    interval_cases n <;> decide

/-- Witness for C1 at the concrete inventory `[1, 1]`. -/
theorem enumerate_sp_topologies_counts_witness :
    ∃ ts, enumerate_sp_topologies [1, 1] = .ok ts ∧
      ts.length =
        [2, 8, 40, 224, 1344, 8448, 54912].getD (([1, 1] : List ℚ).length - 2) 0 :=
  enumerate_sp_topologies_counts [1, 1] (by decide) (by decide) (by decide)

theorem numLeaves_eq_length_leafIndices (t : SPNode) :
    t.numLeaves = t.leafIndices.length := by
  induction t <;> simp [SPNode.numLeaves, SPNode.leafIndices, *]

theorem enumAux_wf (capacitors : List ℚ) :
    ∀ (fuel : Nat) (l : List Nat), l.length ≤ fuel →
      ∀ t ∈ enumAux capacitors fuel l,
        t.leafIndices.Perm l ∧ t.numNodes = 2 * l.length - 1 := by
  intro fuel
  induction fuel with
  | zero =>
    intro l hl t ht
    match l, hl with
    | [], _ => simp [enumAux] at ht
  | succ f ih =>
    intro l hl t ht
    match l with
    | [] => simp [enumAux] at ht
    | [idx] =>
      simp only [enumAux, List.mem_singleton] at ht
      subst ht
      simp [SPNode.leafIndices, SPNode.numNodes]
    | x :: y :: rest =>
      simp only [enumAux, List.mem_flatMap] at ht
      obtain ⟨i, hi, left, hleft, right, hright, ht⟩ := ht
      obtain ⟨k, hk, hik⟩ := List.mem_range'.mp hi
      simp only [List.length_cons] at hk hl
      have hi1 : 1 ≤ i := by omega
      have hi2 : i ≤ rest.length + 1 := by omega
      have htake : ((x :: y :: rest).take i).length = i := by
        simp
        omega
      have hdrop : ((x :: y :: rest).drop i).length = rest.length + 2 - i := by
        simp
      obtain ⟨hpl, hnl⟩ := ih _ (by rw [htake]; omega) left hleft
      obtain ⟨hpr, hnr⟩ := ih _ (by rw [hdrop]; omega) right hright
      have hperm : (left.leafIndices ++ right.leafIndices).Perm (x :: y :: rest) := by
        have := (hpl.append hpr)
        rwa [List.take_append_drop] at this
      rw [htake] at hnl
      rw [hdrop] at hnr
      simp only [List.mem_cons, List.mem_singleton, List.not_mem_nil, or_false] at ht
      rcases ht with rfl | rfl <;>
        exact ⟨hperm, by
          simp only [SPNode.numNodes, hnl, hnr, List.length_cons]
          omega⟩

/-- C7: every tree returned by `enumerate_sp_topologies` over `N`
capacitors has exactly `N` leaves, its leaf indices are a permutation of
`0..N-1` (each index in exactly one leaf), and it has exactly `2N-1`
nodes in total. -/
theorem enumerate_sp_topologies_wellformed (capacitors : List ℚ)
    (ts : List SPNode) (h : enumerate_sp_topologies capacitors = .ok ts)
    (t : SPNode) (ht : t ∈ ts) :
    t.numLeaves = capacitors.length ∧
      t.leafIndices.Perm (List.range capacitors.length) ∧
      t.numNodes = 2 * capacitors.length - 1 := by
  rw [enumerate_sp_topologies] at h
  split at h
  · cases h
  split at h
  · cases h
  obtain rfl : _enumerate_recursive capacitors (List.range capacitors.length) = ts :=
    by cases h; rfl
  rw [_enumerate_recursive] at ht
  obtain ⟨hperm, hnodes⟩ := enumAux_wf capacitors (List.range capacitors.length).length
    (List.range capacitors.length) le_rfl t ht
  rw [List.length_range] at hnodes
  refine ⟨?_, hperm, hnodes⟩
  rw [numLeaves_eq_length_leafIndices, hperm.length_eq, List.length_range]

/-- Witness for C7 at the concrete inventory `[1, 1]` and the first
enumerated tree. -/
theorem enumerate_sp_topologies_wellformed_witness :
    (SPNode.Series (.Leaf 0 1) (.Leaf 1 1)).numLeaves = ([1, 1] : List ℚ).length ∧
      (SPNode.Series (.Leaf 0 1) (.Leaf 1 1)).leafIndices.Perm
        (List.range ([1, 1] : List ℚ).length) ∧
      (SPNode.Series (.Leaf 0 1) (.Leaf 1 1)).numNodes
        = 2 * ([1, 1] : List ℚ).length - 1 :=
  enumerate_sp_topologies_wellformed [1, 1] _ rfl _ (by decide)

/-! ## `metrics.py`: error metrics and the `Solution` record -/

/-- The `Solution` dataclass from `metrics.py`, parametrized by the
topology type (`SPNode` for the tree engine, a graph topology for the
other two); the lazily-created `diagram` field (a matplotlib figure,
always `None` inside the core) is modelled as `Option Unit`. -/
structure Solution (τ : Type) where
  topology : τ
  ceq : ℚ
  target : ℚ
  absolute_error : ℚ
  relative_error : ℚ
  within_tolerance : Bool
  expression : String
  diagram : Option Unit
deriving DecidableEq, Repr

/-- `calculate_absolute_error` from `metrics.py`. -/
def calculate_absolute_error (ceq target : ℚ) : ℚ := |ceq - target|

/-- `calculate_relative_error` from `metrics.py` (raises on a zero
target). -/
def calculate_relative_error (ceq target : ℚ) : Except PyError ℚ :=
  if target = 0 then
    .error (.valueError "Cannot calculate relative error with zero target")
  else
    .ok (|ceq - target| / target * 100)

/-- `check_within_tolerance` from `metrics.py`. -/
def check_within_tolerance (relative_error tolerance : ℚ) : Bool :=
  relative_error ≤ tolerance

/-- `create_solution` from `metrics.py`: validates the target and fills
in all derived fields. -/
def create_solution {τ : Type} (topology : τ) (ceq target tolerance : ℚ)
    (expression : String) : Except PyError (Solution τ) :=
  if target ≤ 0 then .error (.valueError "Target capacitance must be positive")
  else do
    let abs_err := calculate_absolute_error ceq target
    let rel_err ← calculate_relative_error ceq target
    let within_tol := check_within_tolerance rel_err tolerance
    .ok { topology := topology, ceq := ceq, target := target,
          absolute_error := abs_err, relative_error := rel_err,
          within_tolerance := within_tol, expression := expression,
          diagram := none }

/-- The sort key relation of `rank_solutions` (and of the final
`solutions.sort` of the heuristic engine): ascending absolute error. -/
def errLE {τ : Type} (s t : Solution τ) : Prop :=
  s.absolute_error ≤ t.absolute_error

instance {τ : Type} : DecidableRel (@errLE τ) := fun s t =>
  inferInstanceAs (Decidable (s.absolute_error ≤ t.absolute_error))

instance {τ : Type} : IsTotal (Solution τ) errLE :=
  ⟨fun s t => le_total s.absolute_error t.absolute_error⟩

instance {τ : Type} : IsTrans (Solution τ) errLE :=
  ⟨fun _ _ _ h h' => le_trans h h'⟩

/-- `rank_solutions` from `metrics.py`: Python's stable `sorted` by
`absolute_error` is modelled by a stable insertion sort (which computes
the same list as any stable sort for this total key order). -/
def rank_solutions {τ : Type} (solutions : List (Solution τ)) : List (Solution τ) :=
  solutions.insertionSort errLE

theorem rank_solutions_sorted {τ : Type} (solutions : List (Solution τ)) :
    List.Sorted errLE (rank_solutions solutions) :=
  List.sorted_insertionSort errLE solutions

/-! ## `sp_enumeration.py`: the `find_best_sp_solutions` pipeline -/

/-- The body of the `for topology in topologies` loop of
`find_best_sp_solutions` (lines 230-253 of `sp_enumeration.py`),
threading the `seen_normalized` set (as a list) and the accumulated
solutions.  `ZeroDivisionError` and `TypeError` raised inside the loop
body are caught and skip the topology; any other error (the `ValueError`
of `create_solution`) propagates. -/
def find_best_fold (capacitor_labels : List String) (target tolerance : ℚ)
    (deduplicate : Bool) :
    List SPNode → List String × List (Solution SPNode) →
      Except PyError (List String × List (Solution SPNode))
  | [], st => .ok st
  | topology :: rest, (seen, solutions) =>
    match calculate_sp_ceq topology with
    | .error (.zeroDivisionError _) =>
      find_best_fold capacitor_labels target tolerance deduplicate rest
        (seen, solutions)
    | .error (.typeError _) =>
      find_best_fold capacitor_labels target tolerance deduplicate rest
        (seen, solutions)
    | .error e => .error e
    | .ok ceq =>
      let normalized := sp_node_to_normalized_expression topology capacitor_labels
      if deduplicate ∧ seen.contains normalized then
        find_best_fold capacitor_labels target tolerance deduplicate rest
          (seen, solutions)
      else
        let seen := if deduplicate then seen ++ [normalized] else seen
        let expression := sp_node_to_expression topology capacitor_labels
        match create_solution topology ceq target tolerance expression with
        | .ok solution =>
          find_best_fold capacitor_labels target tolerance deduplicate rest
            (seen, solutions ++ [solution])
        | .error (.zeroDivisionError _) =>
          find_best_fold capacitor_labels target tolerance deduplicate rest
            (seen, solutions)
        | .error (.typeError _) =>
          find_best_fold capacitor_labels target tolerance deduplicate rest
            (seen, solutions)
        | .error e => .error e

/-- `find_best_sp_solutions` from `sp_enumeration.py` (lines 184-259):
validate, enumerate, evaluate-and-deduplicate, rank, truncate. -/
def find_best_sp_solutions (capacitors : List ℚ) (target tolerance : ℚ)
    (top_k : Nat) (deduplicate : Bool) :
    Except PyError (List (Solution SPNode)) :=
  if target ≤ 0 then .error (.valueError "Target capacitance must be positive")
  else if tolerance < 0 then .error (.valueError "Tolerance cannot be negative")
  else do
    let capacitor_labels :=
      (List.range capacitors.length).map (fun i => "C" ++ toString (i + 1))
    let topologies ← enumerate_sp_topologies capacitors
    let st ← find_best_fold capacitor_labels target tolerance deduplicate
      topologies ([], [])
    let ranked := rank_solutions st.2
    .ok (ranked.take top_k)

/-! ## `graphs.py`: graph model and connectivity

`networkx.Graph` instances are modelled as a node list (insertion order)
plus an undirected edge list; the `capacitance` edge attribute may be
absent (`none`).  A simple graph never stores two edges on the same
unordered node pair, which is recorded as an explicit hypothesis where a
theorem needs it. -/

/-- A `networkx.Graph` with an optional `capacitance` attribute per edge. -/
structure SGraph where
  nodes : List String
  edges : List (String × String × Option ℚ)
deriving DecidableEq, Repr

/-- The undirected adjacency pairs of a graph (weights forgotten). -/
def SGraph.adjPairs (g : SGraph) : List (String × String) :=
  g.edges.map (fun e => (e.1, e.2.1))

/-- Declarative adjacency along an undirected edge list. -/
def Adj (E : List (String × String)) (u v : String) : Prop :=
  (u, v) ∈ E ∨ (v, u) ∈ E

/-- Declarative path existence between two nodes — the semantics of
`networkx.has_path`. -/
def HasPath (E : List (String × String)) (a b : String) : Prop :=
  Relation.ReflTransGen (Adj E) a b

/-- One breadth-first expansion step: add every node adjacent to the
current set. -/
def expandF (E : List (String × String)) (s : Finset String) : Finset String :=
  s ∪ ((E.filter (fun e => decide (e.1 ∈ s))).map Prod.snd).toFinset
    ∪ ((E.filter (fun e => decide (e.2 ∈ s))).map Prod.fst).toFinset

/-- The set of nodes reached from `a` in at most `fuel` expansion steps. -/
def reachSet (E : List (String × String)) (a : String) (fuel : Nat) : Finset String :=
  (expandF E)^[fuel] {a}

/-- Executable path-existence test: `2·|E| + 1` expansion steps always
reach the fixpoint (proved below). -/
def bfsReachable (E : List (String × String)) (a b : String) : Bool :=
  b ∈ reachSet E a (2 * E.length + 1)

theorem reachSet_succ (E : List (String × String)) (a : String) (f : Nat) :
    reachSet E a (f + 1) = expandF E (reachSet E a f) := by
  rw [reachSet, reachSet]
  exact Function.iterate_succ_apply' _ _ _

theorem subset_expandF (E : List (String × String)) (s : Finset String) :
    s ⊆ expandF E s := by
  intro x hx
  simp only [expandF, Finset.mem_union]
  exact Or.inl (Or.inl hx)

theorem mem_expandF_of_adj {E : List (String × String)} {s : Finset String}
    {u v : String} (hu : u ∈ s) (huv : Adj E u v) : v ∈ expandF E s := by
  rcases huv with h | h
  · simp only [expandF, Finset.mem_union]
    refine Or.inl (Or.inr ?_)
    simp only [List.mem_toFinset, List.mem_map]
    exact ⟨(u, v), by simp [List.mem_filter, h, hu], rfl⟩
  · simp only [expandF, Finset.mem_union]
    refine Or.inr ?_
    simp only [List.mem_toFinset, List.mem_map]
    exact ⟨(v, u), by simp [List.mem_filter, h, hu], rfl⟩

theorem mem_expandF_elim {E : List (String × String)} {s : Finset String}
    {x : String} (hx : x ∈ expandF E s) :
    x ∈ s ∨ ∃ u ∈ s, Adj E u x := by
  simp only [expandF, Finset.mem_union, List.mem_toFinset, List.mem_map] at hx
  rcases hx with (hx | ⟨e, he, hex⟩) | ⟨e, he, hex⟩
  · exact Or.inl hx
  · rw [List.mem_filter] at he
    refine Or.inr ⟨e.1, by simpa using he.2, Or.inl ?_⟩
    rw [← hex]
    exact he.1
  · rw [List.mem_filter] at he
    refine Or.inr ⟨e.2, by simpa using he.2, Or.inr ?_⟩
    rw [← hex]
    exact he.1

/-- Soundness: everything in the reach set is genuinely reachable. -/
theorem reachSet_sound (E : List (String × String)) (a : String) :
    ∀ (fuel : Nat), ∀ x ∈ reachSet E a fuel, HasPath E a x := by
  intro fuel
  induction fuel with
  | zero =>
    intro x hx
    simp [reachSet] at hx
    rw [hx]
    exact Relation.ReflTransGen.refl
  | succ f ih =>
    intro x hx
    rw [reachSet_succ] at hx
    rcases mem_expandF_elim hx with hx' | ⟨u, hu, hadj⟩
    · exact ih x hx'
    · exact Relation.ReflTransGen.tail (ih u hu) hadj

theorem reachSet_mono_step (E : List (String × String)) (a : String) (f : Nat) :
    reachSet E a f ⊆ reachSet E a (f + 1) := by
  rw [reachSet_succ]
  exact subset_expandF E _

/-- All reach-set stages live inside the universe consisting of `a` and
the edge endpoints. -/
theorem reachSet_subset_univ (E : List (String × String)) (a : String) (fuel : Nat) :
    reachSet E a fuel ⊆
      insert a ((E.map Prod.fst).toFinset ∪ (E.map Prod.snd).toFinset) := by
  induction fuel with
  | zero => simp [reachSet]
  | succ f ih =>
    rw [reachSet_succ]
    intro x hx
    rcases mem_expandF_elim hx with hx' | ⟨u, _, hadj⟩
    · exact ih hx'
    · rcases hadj with h | h
      · refine Finset.mem_insert_of_mem (Finset.mem_union_right _ ?_)
        simp only [List.mem_toFinset, List.mem_map]
        exact ⟨(u, x), h, rfl⟩
      · refine Finset.mem_insert_of_mem (Finset.mem_union_left _ ?_)
        simp only [List.mem_toFinset, List.mem_map]
        exact ⟨(x, u), h, rfl⟩

/-- If one stage is a fixpoint, all later stages agree with it. -/
theorem reachSet_stab (E : List (String × String)) (a : String) (k : Nat)
    (h : reachSet E a (k + 1) = reachSet E a k) :
    ∀ (m : Nat), k ≤ m → reachSet E a m = reachSet E a k := by
  intro m hm
  induction m with
  | zero => cases Nat.le_zero.mp hm; rfl
  | succ m ihm =>
    rcases Nat.lt_or_ge k (m + 1) with hlt | hge
    · have hkm : k ≤ m := by omega
      have := ihm hkm
      calc reachSet E a (m + 1) = expandF E (reachSet E a m) := reachSet_succ E a m
        _ = expandF E (reachSet E a k) := by rw [this]
        _ = reachSet E a (k + 1) := (reachSet_succ E a k).symm
        _ = reachSet E a k := h
    · have : m + 1 = k := by omega
      rw [this]

/-- Some stage below `2|E| + 1` is a fixpoint (by cardinality of the
universe of endpoints). -/
theorem reachSet_fix_exists (E : List (String × String)) (a : String) :
    ∃ k ≤ 2 * E.length, reachSet E a (k + 1) = reachSet E a k := by
  by_contra hcon
  push_neg at hcon
  have hgrow : ∀ k ≤ 2 * E.length + 1, k + 1 ≤ (reachSet E a k).card := by
    intro k
    induction k with
    | zero => intro _; simp [reachSet]
    | succ j ihj =>
      intro hj
      have hne := hcon j (by omega)
      have hsub := reachSet_mono_step E a j
      have hcard := Finset.card_lt_card (Finset.ssubset_iff_subset_ne.mpr
        ⟨hsub, Ne.symm hne⟩)
      have := ihj (by omega)
      omega
  have hbig := hgrow (2 * E.length + 1) le_rfl
  have hsub := reachSet_subset_univ E a (2 * E.length + 1)
  have hcardle := Finset.card_le_card hsub
  have hcard_univ :
      (insert a ((E.map Prod.fst).toFinset ∪ (E.map Prod.snd).toFinset)).card
        ≤ 2 * E.length + 1 := by
    have h1 := Finset.card_insert_le a
      ((E.map Prod.fst).toFinset ∪ (E.map Prod.snd).toFinset)
    have h2 := Finset.card_union_le (E.map Prod.fst).toFinset
      (E.map Prod.snd).toFinset
    have h3 : (E.map Prod.fst).toFinset.card ≤ E.length := by
      calc (E.map Prod.fst).toFinset.card ≤ (E.map Prod.fst).length :=
            (E.map Prod.fst).toFinset_card_le
        _ = E.length := by simp
    have h4 : (E.map Prod.snd).toFinset.card ≤ E.length := by
      calc (E.map Prod.snd).toFinset.card ≤ (E.map Prod.snd).length :=
            (E.map Prod.snd).toFinset_card_le
        _ = E.length := by simp
    omega
  omega

/-- Completeness: every reachable node appears in the `2|E|+1`-stage
reach set. -/
theorem reachSet_complete (E : List (String × String)) (a b : String)
    (h : HasPath E a b) : b ∈ reachSet E a (2 * E.length + 1) := by
  obtain ⟨k, hk, hfix⟩ := reachSet_fix_exists E a
  have hN : reachSet E a (2 * E.length + 1) = reachSet E a k :=
    reachSet_stab E a k hfix _ (by omega)
  have hclosed : ∀ u ∈ reachSet E a k, ∀ v, Adj E u v → v ∈ reachSet E a k := by
    intro u hu v hadj
    have : v ∈ expandF E (reachSet E a k) := mem_expandF_of_adj hu hadj
    rwa [← reachSet_succ, hfix] at this
  rw [hN]
  have ha : a ∈ reachSet E a k := by
    have h0 : a ∈ reachSet E a 0 := by simp [reachSet]
    have : ∀ j, a ∈ reachSet E a j := by
      intro j
      induction j with
      | zero => exact h0
      | succ i ihi => exact reachSet_mono_step E a i ihi
    exact this k
  induction h with
  | refl => exact ha
  | tail hxy hadj ih => exact hclosed _ ih _ hadj

/-- The executable test decides declarative path existence. -/
theorem bfsReachable_iff (E : List (String × String)) (a b : String) :
    bfsReachable E a b = true ↔ HasPath E a b := by
  constructor
  · intro h
    exact reachSet_sound E a _ b (by simpa [bfsReachable] using h)
  · intro h
    simpa [bfsReachable] using reachSet_complete E a b h

/-- `is_connected_between_terminals` from `graphs.py` (lines 99-124):
`False` when a terminal is absent, otherwise `nx.has_path` (modelled by
the verified breadth-first search). -/
def is_connected_between_terminals (g : SGraph) (terminal_a terminal_b : String) :
    Bool :=
  if terminal_a ∉ g.nodes ∨ terminal_b ∉ g.nodes then false
  else bfsReachable g.adjPairs terminal_a terminal_b

/-! ## `graphs.py`: the Laplacian matrix -/

/-- The in-place updates of the loop body of `build_laplacian_matrix`
(lines 89-94 of `graphs.py`): `L[i,j] -= cap; L[j,i] -= cap;
L[i,i] += cap; L[j,j] += cap`. -/
def updateL (L : Nat → Nat → ℚ) (i j : Nat) (cap : ℚ) : Nat → Nat → ℚ :=
  fun p q =>
    L p q - (if p = i ∧ q = j then cap else 0)
      - (if p = j ∧ q = i then cap else 0)
      + (if p = i ∧ q = i then cap else 0)
      + (if p = j ∧ q = j then cap else 0)

/-- The edge loop of `build_laplacian_matrix` (lines 81-94): raises
`ValueError` on a missing `capacitance` attribute, otherwise applies the
four in-place updates. -/
def lapFold (node_to_idx : String → Nat) :
    List (String × String × Option ℚ) → (Nat → Nat → ℚ) →
      Except PyError (Nat → Nat → ℚ)
  | [], L => .ok L
  | (_, _, none) :: _, _ =>
    .error (.valueError "All edges must have 'capacitance' attribute")
  | (u, v, some cap) :: rest, L =>
    lapFold node_to_idx rest (updateL L (node_to_idx u) (node_to_idx v) cap)

/-- `build_laplacian_matrix` from `graphs.py` (lines 50-96): the matrix
is represented as a total function on index pairs (entries outside the
`n × n` block stay `0`). -/
def build_laplacian_matrix (g : SGraph) :
    Except PyError ((Nat → Nat → ℚ) × List String) := do
  let L ← lapFold (fun nd => g.nodes.indexOf nd) g.edges (fun _ _ => 0)
  .ok (L, g.nodes)

/-- The total contribution of one edge to the Laplacian entry `(p, q)`. -/
def edgeDelta (node_to_idx : String → Nat) (e : String × String × Option ℚ)
    (p q : Nat) : ℚ :=
  (if p = node_to_idx e.1 ∧ q = node_to_idx e.1 then e.2.2.getD 0 else 0)
    + (if p = node_to_idx e.2.1 ∧ q = node_to_idx e.2.1 then e.2.2.getD 0 else 0)
    - (if p = node_to_idx e.1 ∧ q = node_to_idx e.2.1 then e.2.2.getD 0 else 0)
    - (if p = node_to_idx e.2.1 ∧ q = node_to_idx e.1 then e.2.2.getD 0 else 0)

theorem updateL_eq_add_edgeDelta (L : Nat → Nat → ℚ) (idx : String → Nat)
    (u v : String) (c : ℚ) (p q : Nat) :
    updateL L (idx u) (idx v) c p q = L p q + edgeDelta idx (u, v, some c) p q := by
  simp only [updateL, edgeDelta, Option.getD_some]
  ring

/-- Running the edge loop over all-weighted edges succeeds, and the
resulting matrix is the initial one plus the sum of edge contributions. -/
theorem lapFold_closed (idx : String → Nat) :
    ∀ (edges : List (String × String × Option ℚ)) (L : Nat → Nat → ℚ),
      (∀ e ∈ edges, e.2.2 ≠ none) →
      ∃ L', lapFold idx edges L = .ok L' ∧
        ∀ p q, L' p q = L p q + ((edges.map (fun e => edgeDelta idx e p q)).sum) := by
  intro edges
  induction edges with
  | nil =>
    intro L _
    exact ⟨L, rfl, by simp⟩
  | cons e rest ih =>
    intro L hw
    obtain ⟨u, v, w⟩ := e
    match w, hw (u, v, w) (by simp) with
    | some c, _ =>
      obtain ⟨L', hok, hval⟩ := ih (updateL L (idx u) (idx v) c)
        (fun e he => hw e (List.mem_cons_of_mem _ he))
      refine ⟨L', hok, fun p q => ?_⟩
      rw [hval p q, updateL_eq_add_edgeDelta]
      simp only [List.map_cons, List.sum_cons]
      ring

theorem edgeDelta_symm (idx : String → Nat) (e : String × String × Option ℚ)
    (p q : Nat) : edgeDelta idx e p q = edgeDelta idx e q p := by
  by_cases h1 : p = idx e.1 <;> by_cases h2 : p = idx e.2.1 <;>
    by_cases h3 : q = idx e.1 <;> by_cases h4 : q = idx e.2.1 <;>
    simp [edgeDelta, h1, h2, h3, h4] <;> ring_nf <;> simp_all <;> ring

theorem sum_ite_and_eq (n : Nat) (P : Prop) [Decidable P] (j : Nat) (hj : j < n)
    (c : ℚ) :
    (∑ q ∈ Finset.range n, if P ∧ q = j then c else 0) = if P then c else 0 := by
  by_cases hP : P
  · simp only [hP, true_and]
    rw [Finset.sum_ite_eq' (Finset.range n) j (fun _ => c)]
    simp [hj]
  · simp [hP]

theorem edgeDelta_row_sum (idx : String → Nat) (e : String × String × Option ℚ)
    (n p : Nat) (hi : idx e.1 < n) (hj : idx e.2.1 < n) :
    (∑ q ∈ Finset.range n, edgeDelta idx e p q) = 0 := by
  simp only [edgeDelta, Finset.sum_sub_distrib, Finset.sum_add_distrib]
  rw [sum_ite_and_eq n _ _ hi, sum_ite_and_eq n _ _ hj, sum_ite_and_eq n _ _ hj,
    sum_ite_and_eq n _ _ hi]
  by_cases h1 : p = idx e.1 <;> by_cases h2 : p = idx e.2.1 <;> simp [h1, h2]

/-- Sum of the weights of the edges incident to `u` (each edge counted
once, as in iterating `graph.edges`). -/
def incidentSumL (edges : List (String × String × Option ℚ)) (u : String) : ℚ :=
  ((edges.filter (fun e => decide (e.1 = u ∨ e.2.1 = u))).map
    (fun e => e.2.2.getD 0)).sum

/-- Two undirected edges lie on the same unordered node pair. -/
def samePair (e e' : String × String × Option ℚ) : Prop :=
  (e.1 = e'.1 ∧ e.2.1 = e'.2.1) ∨ (e.1 = e'.2.1 ∧ e.2.1 = e'.1)

theorem edgeDelta_diag_eval (nodes : List String) {u x y : String}
    (hu : u ∈ nodes) (hx : x ∈ nodes) (hy : y ∈ nodes) (hxy : x ≠ y)
    (w : Option ℚ) :
    edgeDelta (fun nd => nodes.indexOf nd) (x, y, w)
        (nodes.indexOf u) (nodes.indexOf u)
      = if x = u ∨ y = u then w.getD 0 else 0 := by
  by_cases hxu : x = u <;> by_cases hyu : y = u
  · exact absurd (hxu.trans hyu.symm) hxy
  · subst hxu
    have h2 : (nodes.indexOf x = nodes.indexOf y) ↔ x = y := List.indexOf_inj hx hy
    simp [edgeDelta, h2, hxy]
  · subst hyu
    have h1 : (nodes.indexOf y = nodes.indexOf x) ↔ y = x := List.indexOf_inj hy hx
    simp [edgeDelta, h1, Ne.symm hxy]
  · have h1 : (nodes.indexOf u = nodes.indexOf x) ↔ u = x := List.indexOf_inj hu hx
    have h2 : (nodes.indexOf u = nodes.indexOf y) ↔ u = y := List.indexOf_inj hu hy
    have hxu' : ¬u = x := fun h => hxu h.symm
    have hyu' : ¬u = y := fun h => hyu h.symm
    simp [edgeDelta, h1, h2, hxu', hyu', hxu, hyu]

theorem edgeDelta_offdiag_eval (nodes : List String) {u v x y : String}
    (hu : u ∈ nodes) (hv : v ∈ nodes) (hx : x ∈ nodes) (hy : y ∈ nodes)
    (huv : u ≠ v) (w : Option ℚ) :
    edgeDelta (fun nd => nodes.indexOf nd) (x, y, w)
        (nodes.indexOf u) (nodes.indexOf v)
      = if (x = u ∧ y = v) ∨ (x = v ∧ y = u) then -(w.getD 0) else 0 := by
  by_cases hc : (x = u ∧ y = v) ∨ (x = v ∧ y = u)
  · rcases hc with ⟨hxu, hyv⟩ | ⟨hxv, hyu⟩
    · subst hxu
      subst hyv
      have hyx : (nodes.indexOf y = nodes.indexOf x) ↔ y = x :=
        List.indexOf_inj hy hx
      have hxy : (nodes.indexOf x = nodes.indexOf y) ↔ x = y :=
        List.indexOf_inj hx hy
      simp [edgeDelta, hyx, hxy, huv, Ne.symm huv]
    · subst hxv
      subst hyu
      have hyx : (nodes.indexOf y = nodes.indexOf x) ↔ y = x :=
        List.indexOf_inj hy hx
      have hxy : (nodes.indexOf x = nodes.indexOf y) ↔ x = y :=
        List.indexOf_inj hx hy
      simp [edgeDelta, hyx, hxy, huv, Ne.symm huv]
  · push_neg at hc
    have h1 : (nodes.indexOf u = nodes.indexOf x) ↔ u = x := List.indexOf_inj hu hx
    have h2 : (nodes.indexOf u = nodes.indexOf y) ↔ u = y := List.indexOf_inj hu hy
    have h3 : (nodes.indexOf v = nodes.indexOf x) ↔ v = x := List.indexOf_inj hv hx
    have h4 : (nodes.indexOf v = nodes.indexOf y) ↔ v = y := List.indexOf_inj hv hy
    have c1 : ¬(u = x ∧ v = x) := fun h => huv (h.1.trans h.2.symm)
    have c2 : ¬(u = y ∧ v = y) := fun h => huv (h.1.trans h.2.symm)
    have c3 : ¬(u = x ∧ v = y) := fun h => (hc.1 h.1.symm) h.2.symm
    have c4 : ¬(u = y ∧ v = x) := fun h => (hc.2 h.2.symm) h.1.symm
    have hcor : ¬((x = u ∧ y = v) ∨ (x = v ∧ y = u)) := by
      rintro (⟨a, b⟩ | ⟨a, b⟩)
      · exact (hc.1 a) b
      · exact (hc.2 a) b
    simp only [edgeDelta, h1, h2, h3, h4]
    rw [if_neg c1, if_neg c2, if_neg c3, if_neg c4, if_neg hcor]
    ring

theorem sum_edgeDelta_diag (nodes : List String) {u : String} (hu : u ∈ nodes) :
    ∀ (edges : List (String × String × Option ℚ)),
      (∀ e ∈ edges, e.1 ∈ nodes ∧ e.2.1 ∈ nodes) →
      (∀ e ∈ edges, e.1 ≠ e.2.1) →
      ((edges.map (fun e => edgeDelta (fun nd => nodes.indexOf nd) e
          (nodes.indexOf u) (nodes.indexOf u))).sum) = incidentSumL edges u := by
  intro edges
  induction edges with
  | nil => intro _ _; simp [incidentSumL]
  | cons e rest ih =>
    intro hmem hloop
    obtain ⟨x, y, w⟩ := e
    have hx : x ∈ nodes := (hmem (x, y, w) (by simp)).1
    have hy : y ∈ nodes := (hmem (x, y, w) (by simp)).2
    have hxy : x ≠ y := hloop (x, y, w) (by simp)
    rw [List.map_cons, List.sum_cons, edgeDelta_diag_eval nodes hu hx hy hxy w,
      ih (fun e he => hmem e (List.mem_cons_of_mem _ he))
        (fun e he => hloop e (List.mem_cons_of_mem _ he))]
    rw [incidentSumL, incidentSumL, List.filter_cons]
    by_cases hc : x = u ∨ y = u
    · simp [hc]
    · simp [hc]

theorem sum_edgeDelta_offdiag_zero (nodes : List String) {u v : String}
    (hu : u ∈ nodes) (hv : v ∈ nodes) (huv : u ≠ v) :
    ∀ (edges : List (String × String × Option ℚ)),
      (∀ e ∈ edges, e.1 ∈ nodes ∧ e.2.1 ∈ nodes) →
      (∀ e ∈ edges, ¬((e.1 = u ∧ e.2.1 = v) ∨ (e.1 = v ∧ e.2.1 = u))) →
      ((edges.map (fun e => edgeDelta (fun nd => nodes.indexOf nd) e
          (nodes.indexOf u) (nodes.indexOf v))).sum) = 0 := by
  intro edges
  induction edges with
  | nil => intro _ _; simp
  | cons e rest ih =>
    intro hmem hnm
    obtain ⟨x, y, w⟩ := e
    rw [List.map_cons, List.sum_cons,
      edgeDelta_offdiag_eval nodes hu hv (hmem (x, y, w) (by simp)).1
        (hmem (x, y, w) (by simp)).2 huv w,
      if_neg (hnm (x, y, w) (by simp)),
      ih (fun e he => hmem e (List.mem_cons_of_mem _ he))
        (fun e he => hnm e (List.mem_cons_of_mem _ he))]
    ring

theorem sum_edgeDelta_offdiag (nodes : List String) {u v : String} {w : Option ℚ}
    (hu : u ∈ nodes) (hv : v ∈ nodes) (huv : u ≠ v) :
    ∀ (edges : List (String × String × Option ℚ)),
      (∀ e ∈ edges, e.1 ∈ nodes ∧ e.2.1 ∈ nodes) →
      List.Pairwise (fun e e' => ¬ samePair e e') edges →
      (u, v, w) ∈ edges →
      ((edges.map (fun e => edgeDelta (fun nd => nodes.indexOf nd) e
          (nodes.indexOf u) (nodes.indexOf v))).sum) = -(w.getD 0) := by
  intro edges
  induction edges with
  | nil => intro _ _ hmem; simp at hmem
  | cons e rest ih =>
    intro hmem hpw huvw
    rw [List.pairwise_cons] at hpw
    rw [List.mem_cons] at huvw
    rcases huvw with heq | hmem'
    · rw [List.map_cons, List.sum_cons, ← heq]
      rw [edgeDelta_offdiag_eval nodes hu hv hu hv huv w, if_pos (by simp),
        sum_edgeDelta_offdiag_zero nodes hu hv huv rest
          (fun e he => hmem e (List.mem_cons_of_mem _ he))
          (fun e he => ?_)]
      · ring
      · have hnp := hpw.1 e he
        rw [← heq] at hnp
        rintro (⟨a, b⟩ | ⟨a, b⟩)
        · exact hnp (Or.inl ⟨a.symm, b.symm⟩)
        · exact hnp (Or.inr ⟨b.symm, a.symm⟩)
    · obtain ⟨x, y, we⟩ := e
      have hnm : ¬((x = u ∧ y = v) ∨ (x = v ∧ y = u)) := by
        have := hpw.1 (u, v, w) hmem'
        simpa [samePair, and_comm, eq_comm] using this
      rw [List.map_cons, List.sum_cons,
        edgeDelta_offdiag_eval nodes hu hv (hmem (x, y, we) (by simp)).1
          (hmem (x, y, we) (by simp)).2 huv we,
        if_neg hnm,
        ih (fun e he => hmem e (List.mem_cons_of_mem _ he)) hpw.2 hmem']
      ring

instance samePairDec : ∀ (e e' : String × String × Option ℚ),
    Decidable (samePair e e') := fun e e' => by
  unfold samePair
  infer_instance

theorem sum_rows_zero (nodes : List String) :
    ∀ (edges : List (String × String × Option ℚ)),
      (∀ e ∈ edges, e.1 ∈ nodes ∧ e.2.1 ∈ nodes) →
      ∀ p, (∑ q ∈ Finset.range nodes.length,
        ((edges.map (fun e => edgeDelta (fun nd => nodes.indexOf nd) e p q)).sum))
        = 0 := by
  intro edges
  induction edges with
  | nil => intro _ p; simp
  | cons e rest ih =>
    intro hmem p
    simp only [List.map_cons, List.sum_cons, Finset.sum_add_distrib]
    rw [edgeDelta_row_sum (fun nd => nodes.indexOf nd) e nodes.length p
        (List.indexOf_lt_length.mpr (hmem e (by simp)).1)
        (List.indexOf_lt_length.mpr (hmem e (by simp)).2),
      ih (fun e he => hmem e (List.mem_cons_of_mem _ he)) p]
    simp

/-- C9 (amended): for every simple graph (each unordered node pair
carries at most one edge, no self-loops, endpoints listed as nodes)
whose edges all carry a capacitance weight, `build_laplacian_matrix`
succeeds and produces a symmetric matrix with zero row sums, whose
diagonal entry at a node is the sum of the weights of its incident edges
and whose off-diagonal entry at an edge's index pair is minus that
edge's weight.  (Symmetry and the zero row sums hold for arbitrary
graphs, self-loops included; a self-loop contributes zero to every
entry, which is what falsifies the unamended diagonal clause.) -/
theorem build_laplacian_matrix_spec (g : SGraph)
    (hw : ∀ e ∈ g.edges, e.2.2 ≠ none)
    (hmem : ∀ e ∈ g.edges, e.1 ∈ g.nodes ∧ e.2.1 ∈ g.nodes)
    (hsimple : List.Pairwise (fun e e' => ¬ samePair e e') g.edges)
    (hloop : ∀ e ∈ g.edges, e.1 ≠ e.2.1) :
    ∃ L, build_laplacian_matrix g = .ok (L, g.nodes) ∧
      (∀ p q, L p q = L q p) ∧
      (∀ p, (∑ q ∈ Finset.range g.nodes.length, L p q) = 0) ∧
      (∀ u ∈ g.nodes, L (g.nodes.indexOf u) (g.nodes.indexOf u)
        = incidentSumL g.edges u) ∧
      (∀ e ∈ g.edges,
        L (g.nodes.indexOf e.1) (g.nodes.indexOf e.2.1) = -(e.2.2.getD 0) ∧
        L (g.nodes.indexOf e.2.1) (g.nodes.indexOf e.1) = -(e.2.2.getD 0)) := by
  obtain ⟨L, hok, hval⟩ :=
    lapFold_closed (fun nd => g.nodes.indexOf nd) g.edges (fun _ _ => 0) hw
  have hsymm : ∀ p q, L p q = L q p := by
    intro p q
    rw [hval p q, hval q p]
    simp only [zero_add]
    exact congrArg List.sum
      (List.map_congr_left (fun e _ => edgeDelta_symm _ e p q))
  refine ⟨L, ?_, hsymm, ?_, ?_, ?_⟩
  · rw [build_laplacian_matrix, hok]
    rfl
  · intro p
    have hz := sum_rows_zero g.nodes g.edges hmem p
    calc (∑ q ∈ Finset.range g.nodes.length, L p q)
        = ∑ q ∈ Finset.range g.nodes.length,
            ((g.edges.map
              (fun e => edgeDelta (fun nd => g.nodes.indexOf nd) e p q)).sum) :=
          Finset.sum_congr rfl (fun q _ => by rw [hval p q]; simp)
      _ = 0 := hz
  · intro u hu
    rw [hval]
    simp only [zero_add]
    exact sum_edgeDelta_diag g.nodes hu g.edges hmem hloop
  · intro e he
    obtain ⟨x, y, w⟩ := e
    have hx : x ∈ g.nodes := (hmem (x, y, w) he).1
    have hy : y ∈ g.nodes := (hmem (x, y, w) he).2
    have hxy : x ≠ y := hloop (x, y, w) he
    have hfirst : L (g.nodes.indexOf x) (g.nodes.indexOf y) = -(w.getD 0) := by
      rw [hval]
      simp only [zero_add]
      exact sum_edgeDelta_offdiag g.nodes hx hy hxy g.edges hmem hsimple he
    exact ⟨hfirst, by rw [hsymm]; exact hfirst⟩

/-- The one-node graph with a single self-loop of weight 5. -/
def selfLoopGraph : SGraph := ⟨["A"], [("A", "A", some 5)]⟩

/-- C9 counterexample: in the graph with the single self-loop edge
`('A','A', capacitance=5)` — every edge carries a weight — the Laplacian
diagonal entry of node `A` is `0`, not the incident weight sum `5`:
the four in-place updates of `build_laplacian_matrix` cancel when
`i == j`.  So the claimed `L[i][i] = Σ incident weights` is false as
stated. -/
theorem build_laplacian_selfloop :
    ((build_laplacian_matrix selfLoopGraph).toOption.map
      (fun Ln => Ln.1 0 0)) = some 0 ∧
    incidentSumL selfLoopGraph.edges "A" = 5 ∧
    (0 : ℚ) ≠ 5 ∧
    (∀ e ∈ selfLoopGraph.edges, e.2.2 ≠ none) ∧
    selfLoopGraph.nodes.indexOf "A" = 0 := by
  refine ⟨?_, ?_, by norm_num, by decide, by decide⟩
  · norm_num [build_laplacian_matrix, lapFold, updateL, selfLoopGraph,
      exceptBind_ok, Except.toOption]
  · norm_num [incidentSumL, selfLoopGraph]

/-- The two-node, one-edge graph used as the C9 witness. -/
def lapWitnessGraph : SGraph := ⟨["A", "B"], [("A", "B", some 2)]⟩

/-- Witness for C9 (amended) on a concrete two-node graph. -/
theorem build_laplacian_matrix_spec_witness :
    ∃ L, build_laplacian_matrix lapWitnessGraph = .ok (L, lapWitnessGraph.nodes) ∧
      (∀ p q, L p q = L q p) ∧
      (∀ p, (∑ q ∈ Finset.range lapWitnessGraph.nodes.length, L p q) = 0) ∧
      (∀ u ∈ lapWitnessGraph.nodes,
        L (lapWitnessGraph.nodes.indexOf u) (lapWitnessGraph.nodes.indexOf u)
          = incidentSumL lapWitnessGraph.edges u) ∧
      (∀ e ∈ lapWitnessGraph.edges,
        L (lapWitnessGraph.nodes.indexOf e.1) (lapWitnessGraph.nodes.indexOf e.2.1)
            = -(e.2.2.getD 0) ∧
        L (lapWitnessGraph.nodes.indexOf e.2.1) (lapWitnessGraph.nodes.indexOf e.1)
            = -(e.2.2.getD 0)) :=
  build_laplacian_matrix_spec lapWitnessGraph (by decide) (by decide)
    (by decide) (by decide)

/-! ## `graphs.py`: `calculate_graph_ceq` -/

/-- The abstracted interior of `calculate_graph_ceq` (lines 203-251 of
`graphs.py`): the reduced-system solve over floating-point matrices,
returning the current into terminal A and an optional warning.  Every
theorem below holds for an arbitrary solver. -/
def SolverT : Type :=
  (Nat → Nat → ℚ) → List String → Nat → Nat → List Nat → ℚ × Option String

/-- The summing loop of the two-node branch of `calculate_graph_ceq`
(lines 173-180): raises `ValueError` at the first edge that lacks the
`capacitance` attribute, otherwise sums the weights. -/
def sumEdgeWeights : List (String × String × Option ℚ) → Except PyError ℚ
  | [] => .ok 0
  | (_, _, none) :: _ =>
    .error (.valueError "All edges must have 'capacitance' attribute")
  | (_, _, some c) :: rest => do
    let s ← sumEdgeWeights rest
    .ok (c + s)

/-- `calculate_graph_ceq` from `graphs.py` (lines 127-256): terminal
validation, disconnection sentinel, trivial two-node branch, Laplacian
construction, and the abstracted numerical solve followed by the
non-negativity clamp.  (In the branch with no internal nodes all edges
are already known to carry weights, because `build_laplacian_matrix`
has succeeded.) -/
def calculate_graph_ceq (solver : SolverT) (g : SGraph)
    (terminal_a terminal_b : String) : Except PyError (ℚ × Option String) :=
  if terminal_a ∉ g.nodes then
    .error (.valueError ("Terminal '" ++ terminal_a ++ "' must be a node in graph"))
  else if terminal_b ∉ g.nodes then
    .error (.valueError ("Terminal '" ++ terminal_b ++ "' must be a node in graph"))
  else if !(is_connected_between_terminals g terminal_a terminal_b) then
    .ok (0, some "No path between A and B")
  else if g.nodes.length = 2 then do
    let total_cap ← sumEdgeWeights g.edges
    .ok (total_cap, none)
  else do
    let Ln ← build_laplacian_matrix g
    let node_list := Ln.2
    let idx_a := node_list.indexOf terminal_a
    let idx_b := node_list.indexOf terminal_b
    let internal_indices := (List.range node_list.length).filter
      (fun i => decide (i ≠ idx_a) && decide (i ≠ idx_b))
    if internal_indices.isEmpty then
      .ok ((g.edges.map (fun e => e.2.2.getD 0)).sum, none)
    else
      let res := solver Ln.1 node_list idx_a idx_b internal_indices
      .ok (max 0 res.1, res.2)

theorem sumEdgeWeights_error (edges : List (String × String × Option ℚ))
    (h : ∃ e ∈ edges, e.2.2 = none) :
    sumEdgeWeights edges
      = .error (.valueError "All edges must have 'capacitance' attribute") := by
  induction edges with
  | nil => simp at h
  | cons e rest ih =>
    obtain ⟨u, v, w⟩ := e
    match w with
    | none => rfl
    | some c =>
      obtain ⟨e', he', hw'⟩ := h
      rw [List.mem_cons] at he'
      rcases he' with rfl | he'
      · simp at hw'
      · rw [sumEdgeWeights, ih ⟨e', he', hw'⟩]
        rfl

theorem lapFold_error (idx : String → Nat) :
    ∀ (edges : List (String × String × Option ℚ)) (L : Nat → Nat → ℚ),
      (∃ e ∈ edges, e.2.2 = none) →
      lapFold idx edges L
        = .error (.valueError "All edges must have 'capacitance' attribute") := by
  intro edges
  induction edges with
  | nil => intro L h; simp at h
  | cons e rest ih =>
    intro L h
    obtain ⟨u, v, w⟩ := e
    match w with
    | none => rfl
    | some c =>
      obtain ⟨e', he', hw'⟩ := h
      rw [List.mem_cons] at he'
      rcases he' with rfl | he'
      · simp at hw'
      · rw [lapFold, ih _ ⟨e', he', hw'⟩]

/-- C4 (amended): `calculate_graph_ceq` raises a `ValueError` when
either designated terminal is not a node of the graph; when both
terminals are present but no path connects them it returns exactly
`(0.0, "No path between A and B")` — even if some edge lacks a
capacitance weight, because the sentinel is returned before any weight
is read; and when the terminals are connected, a missing edge weight
raises a `ValueError`. -/
theorem calculate_graph_ceq_spec (solver : SolverT) (g : SGraph) (a b : String) :
    (a ∉ g.nodes →
      calculate_graph_ceq solver g a b
        = .error (.valueError ("Terminal '" ++ a ++ "' must be a node in graph"))) ∧
    (a ∈ g.nodes → b ∉ g.nodes →
      calculate_graph_ceq solver g a b
        = .error (.valueError ("Terminal '" ++ b ++ "' must be a node in graph"))) ∧
    (a ∈ g.nodes → b ∈ g.nodes → ¬HasPath g.adjPairs a b →
      calculate_graph_ceq solver g a b = .ok (0, some "No path between A and B")) ∧
    (a ∈ g.nodes → b ∈ g.nodes → HasPath g.adjPairs a b →
      (∃ e ∈ g.edges, e.2.2 = none) →
      calculate_graph_ceq solver g a b
        = .error (.valueError "All edges must have 'capacitance' attribute")) := by
  refine ⟨?_, ?_, ?_, ?_⟩
  · intro ha
    rw [calculate_graph_ceq, if_pos ha]
  · intro ha hb
    rw [calculate_graph_ceq, if_neg (not_not_intro ha), if_pos hb]
  · intro ha hb hpath
    have hbfs : bfsReachable g.adjPairs a b = false := by
      rw [← Bool.not_eq_true, bfsReachable_iff]
      exact hpath
    have hconn : is_connected_between_terminals g a b = false := by
      rw [is_connected_between_terminals, if_neg (by
        push_neg
        exact ⟨ha, hb⟩)]
      exact hbfs
    rw [calculate_graph_ceq, if_neg (not_not_intro ha),
      if_neg (not_not_intro hb), if_pos (by rw [hconn]; rfl)]
  · intro ha hb hpath hmiss
    have hbfs : bfsReachable g.adjPairs a b = true := (bfsReachable_iff _ _ _).mpr hpath
    have hconn : is_connected_between_terminals g a b = true := by
      rw [is_connected_between_terminals, if_neg (by
        push_neg
        exact ⟨ha, hb⟩)]
      exact hbfs
    rw [calculate_graph_ceq, if_neg (not_not_intro ha),
      if_neg (not_not_intro hb), if_neg (by rw [hconn]; simp)]
    by_cases h2 : g.nodes.length = 2
    · rw [if_pos h2, sumEdgeWeights_error g.edges hmiss]
      rfl
    · rw [if_neg h2, build_laplacian_matrix,
        lapFold_error (fun nd => g.nodes.indexOf nd) g.edges _ hmiss]
      rfl

/-- A trivial instantiation of the abstracted numerical solver (the
theorems hold for every solver; the counterexample only exercises code
before the solve). -/
def zeroSolver : SolverT := fun _ _ _ _ _ => (0, none)

/-- The C4 counterexample graph: both terminals present, `A` and `B` in
different components, and the edge `('B','D')` has no capacitance
weight. -/
def c4Graph : SGraph :=
  ⟨["A", "B", "C", "D"], [("A", "C", some 1), ("B", "D", none)]⟩

/-- C4 counterexample: on `c4Graph` the edge `('B','D')` lacks a weight,
so the claim's first clause demands an error, but both terminals are
present and disconnected, so `calculate_graph_ceq` returns the sentinel
`(0.0, "No path between A and B")` without ever reading the weights —
the claim's two clauses contradict each other on this input. -/
theorem calculate_graph_ceq_disconnected_missing_weight :
    calculate_graph_ceq zeroSolver c4Graph "A" "B"
        = .ok (0, some "No path between A and B") ∧
    ("A" ∈ c4Graph.nodes ∧ "B" ∈ c4Graph.nodes) ∧
    ("B", "D", (none : Option ℚ)) ∈ c4Graph.edges ∧
    ¬HasPath c4Graph.adjPairs "A" "B" := by
  have hnp : ¬HasPath c4Graph.adjPairs "A" "B" := by
    intro h
    have := (bfsReachable_iff c4Graph.adjPairs "A" "B").mpr h
    exact absurd this (by decide)
  exact ⟨(calculate_graph_ceq_spec zeroSolver c4Graph "A" "B").2.2.1
      (by decide) (by decide) hnp,
    ⟨by decide, by decide⟩, by decide, hnp⟩

/-- Witness for C4 (amended): each clause applied at a concrete graph. -/
theorem calculate_graph_ceq_spec_witness :
    calculate_graph_ceq zeroSolver ⟨["B"], []⟩ "A" "B"
        = .error (.valueError ("Terminal '" ++ "A" ++ "' must be a node in graph")) ∧
    calculate_graph_ceq zeroSolver c4Graph "A" "B"
        = .ok (0, some "No path between A and B") ∧
    calculate_graph_ceq zeroSolver ⟨["A", "B"], [("A", "B", none)]⟩ "A" "B"
        = .error (.valueError "All edges must have 'capacitance' attribute") := by
  refine ⟨(calculate_graph_ceq_spec zeroSolver ⟨["B"], []⟩ "A" "B").1 (by decide),
    (calculate_graph_ceq_spec zeroSolver c4Graph "A" "B").2.2.1
      (by decide) (by decide) ?_,
    (calculate_graph_ceq_spec zeroSolver ⟨["A", "B"], [("A", "B", none)]⟩
        "A" "B").2.2.2 (by decide) (by decide)
      ((bfsReachable_iff _ "A" "B").mp (by decide))
      ⟨("A", "B", none), by decide, rfl⟩⟩
  intro h
  exact absurd ((bfsReachable_iff c4Graph.adjPairs "A" "B").mpr h) (by decide)

/-! ## `heuristics.py`: random graph generation and heuristic search

`numpy.random.Generator` is abstracted as a deterministic state machine:
`integers lo hi` models `rng.integers(lo, hi)` (a value in `[lo, hi)`),
`choiceIdx n` models `rng.choice` over a sequence of length `n` (an
index), and `choiceSample n k` models
`rng.choice(n, size=k, replace=False)` (a list of `k` indices).  All
theorems below hold for every instantiation, hence in particular for the
real PCG64 generator with its in-range guarantees. -/

structure RNGOps (σ : Type) where
  fromSeed : Nat → σ
  integers : Nat → Nat → σ → Nat × σ
  choiceIdx : Nat → σ → Nat × σ
  choiceSample : Nat → Nat → σ → List Nat × σ

/-- `GraphTopology` from `graphs.py` (lines 23-47), parametrized by the
graph representation. -/
structure GraphTopology (γ : Type) where
  graph : γ
  terminal_a : String
  terminal_b : String
  internal_nodes : List String
deriving DecidableEq, Repr

/-- `graph_topology_to_expression` from `graphs.py` (lines 259-271). -/
def graph_topology_to_expression (t : GraphTopology SGraph) : String :=
  "Graph(" ++ toString t.graph.nodes.length ++ " nodes, "
    ++ toString t.graph.edges.length ++ " edges, "
    ++ toString t.internal_nodes.length ++ " internal)"

/-- The `possible_edges` double loop of `generate_random_graph`
(lines 95-99 of `heuristics.py`): all ordered pairs with `i < j`. -/
def possible_edges_of (nodes : List String) : List (String × String) :=
  (List.range nodes.length).flatMap (fun i =>
    (List.range nodes.length).flatMap (fun j =>
      if i < j then [(nodes.getD i "", nodes.getD j "")] else []))

/-- `generate_random_graph` from `heuristics.py` (lines 36-114): raises
on an empty inventory, draws an internal-node count and an edge count,
samples distinct edge slots, and assigns each selected edge a random
capacitor value.  (`max_internal_nodes` is a `Nat` here, so the
negative-count validation of the source cannot fire.) -/
def generate_random_graph {σ : Type} (rng : RNGOps σ) (capacitors : List ℚ)
    (max_internal_nodes : Nat) (s : σ) : Except PyError SGraph × σ :=
  if capacitors.isEmpty then
    (.error (.valueError "Cannot generate graph with no capacitors"), s)
  else
    let ri := rng.integers 0 (max_internal_nodes + 1) s
    let n_internal := ri.1
    let total_nodes := 2 + n_internal
    let nodes := ["A", "B"] ++ (List.range n_internal).map
      (fun i => "n" ++ toString (i + 1))
    let max_edges := total_nodes * (total_nodes - 1) / 2
    let min_edges := total_nodes - 1
    let re := rng.integers min_edges (max_edges + 1) ri.2
    let n_edges := re.1
    let possible_edges := possible_edges_of nodes
    let rs := rng.choiceSample possible_edges.length
      (min n_edges possible_edges.length) re.2
    let selected_indices := rs.1
    let folded := selected_indices.foldl
      (fun (acc : List (String × String × Option ℚ) × σ) idx =>
        let uv := possible_edges.getD idx ("", "")
        let rc := rng.choiceIdx capacitors.length acc.2
        (acc.1 ++ [(uv.1, uv.2, some (capacitors.getD rc.1 0))], rc.2))
      ([], rs.2)
    (.ok ⟨nodes, folded.1⟩, folded.2)

/-- `len(nx.connected_components(graph)) == 1`: every node is reachable
from the first one. -/
def connectedAll (g : SGraph) : Bool :=
  g.nodes.all (fun v => bfsReachable g.adjPairs g.nodes.headI v)

/-- The connected component containing `u`, in node-list order. -/
def componentOf (g : SGraph) (u : String) : List String :=
  g.nodes.filter (fun v => bfsReachable g.adjPairs u v)

/-- `_ensure_connected` from `heuristics.py` (lines 117-169): when the
graph is already connected (or the two terminals share a component)
nothing changes; when a terminal is absent it fails; otherwise one
random bridging edge is added between the terminals' components. -/
def _ensure_connected {σ : Type} (rng : RNGOps σ) (graph : SGraph)
    (capacitors : List ℚ) (s : σ) (terminal_a terminal_b : String) :
    (Bool × SGraph) × σ :=
  if connectedAll graph then ((true, graph), s)
  else if terminal_a ∉ graph.nodes ∨ terminal_b ∉ graph.nodes then
    ((false, graph), s)
  else if bfsReachable graph.adjPairs terminal_a terminal_b then
    ((true, graph), s)
  else
    let nodes_a := componentOf graph terminal_a
    let nodes_b := componentOf graph terminal_b
    let ra := rng.choiceIdx nodes_a.length s
    let rb := rng.choiceIdx nodes_b.length ra.2
    let rc := rng.choiceIdx capacitors.length rb.2
    let u := nodes_a.getD ra.1 ""
    let v := nodes_b.getD rb.1 ""
    let cap := capacitors.getD rc.1 0
    ((true, { graph with edges := graph.edges ++ [(u, v, some cap)] }), rc.2)

/-- `generate_connected_graph` from `heuristics.py` (lines 172-209):
up to `max_attempts` regenerations; `none` when the budget runs out. -/
def generate_connected_graph {σ : Type} (rng : RNGOps σ) (capacitors : List ℚ)
    (max_internal_nodes : Nat) :
    Nat → σ → Except PyError (Option SGraph) × σ
  | 0, s => (.ok none, s)
  | attempts + 1, s =>
    match generate_random_graph rng capacitors max_internal_nodes s with
    | (.error e, s') => (.error e, s')
    | (.ok G, s') =>
      match _ensure_connected rng G capacitors s' "A" "B" with
      | ((true, G'), s'') =>
        if is_connected_between_terminals G' "A" "B" then (.ok (some G'), s'')
        else generate_connected_graph rng capacitors max_internal_nodes attempts s''
      | ((false, _), s'') =>
        generate_connected_graph rng capacitors max_internal_nodes attempts s''

/-- The `for i in range(iterations)` loop of `heuristic_search`
(lines 271-330 of `heuristics.py`), threading the generator state and
the accumulated solution pool.  Progress callbacks and the running
best-error tracker perform no computation that affects the result and
are omitted. -/
def hs_loop {σ : Type} (rng : RNGOps σ) (solver : SolverT) (capacitors : List ℚ)
    (target tolerance : ℚ) (max_internal_nodes : Nat) :
    Nat → σ → List (Solution (GraphTopology SGraph)) →
      Except PyError (List (Solution (GraphTopology SGraph)))
  | 0, _, acc => .ok acc
  | k + 1, s, acc =>
    match generate_connected_graph rng capacitors max_internal_nodes 10 s with
    | (.error e, _) => .error e
    | (.ok none, s') =>
      hs_loop rng solver capacitors target tolerance max_internal_nodes k s' acc
    | (.ok (some graph), s') => do
      let cw ← calculate_graph_ceq solver graph "A" "B"
      let ceq := cw.1
      if ceq ≤ 0 then
        hs_loop rng solver capacitors target tolerance max_internal_nodes k s' acc
      else do
        let abs_err := calculate_absolute_error ceq target
        let rel_err ← calculate_relative_error ceq target
        let within_tol := check_within_tolerance rel_err tolerance
        let internal_nodes := graph.nodes.filter
          (fun n => decide (n ≠ "A") && decide (n ≠ "B"))
        let topology : GraphTopology SGraph := ⟨graph, "A", "B", internal_nodes⟩
        let expression := graph_topology_to_expression topology
        let solution : Solution (GraphTopology SGraph) :=
          { topology := topology, ceq := ceq, target := target,
            absolute_error := abs_err, relative_error := rel_err,
            within_tolerance := within_tol, expression := expression,
            diagram := none }
        hs_loop rng solver capacitors target tolerance max_internal_nodes k s'
          (acc ++ [solution])

/-- `heuristic_search` from `heuristics.py` (lines 212-343): input
validation (note: the tolerance is *not* validated), seeded generation
loop, final stable sort by absolute error, truncation to `top_k`. -/
def heuristic_search {σ : Type} (rng : RNGOps σ) (solver : SolverT)
    (capacitors : List ℚ) (target : ℚ) (iterations max_internal_nodes seed : Nat)
    (tolerance : ℚ) (top_k : Nat) :
    Except PyError (List (Solution (GraphTopology SGraph))) :=
  if target ≤ 0 then .error (.valueError "Target capacitance must be positive")
  else if iterations < 1 then .error (.valueError "Iterations must be at least 1")
  else if capacitors.isEmpty then .error (.valueError "Cannot search with no capacitors")
  else do
    let s := rng.fromSeed seed
    let solutions ← hs_loop rng solver capacitors target tolerance
      max_internal_nodes iterations s []
    let sorted := solutions.insertionSort errLE
    .ok (sorted.take top_k)

theorem edges_fold_all_some {σ : Type} (rng : RNGOps σ) (capacitors : List ℚ)
    (possible_edges : List (String × String)) :
    ∀ (idxs : List Nat) (acc : List (String × String × Option ℚ) × σ),
      (∀ e ∈ acc.1, e.2.2 ≠ none) →
      ∀ e ∈ (idxs.foldl
        (fun (acc : List (String × String × Option ℚ) × σ) idx =>
          let uv := possible_edges.getD idx ("", "")
          let rc := rng.choiceIdx capacitors.length acc.2
          (acc.1 ++ [(uv.1, uv.2, some (capacitors.getD rc.1 0))], rc.2))
        acc).1, e.2.2 ≠ none := by
  intro idxs
  induction idxs with
  | nil => intro acc h; exact h
  | cons i rest ih =>
    intro acc h
    simp only [List.foldl_cons]
    apply ih
    intro e he
    rw [List.mem_append] at he
    rcases he with he | he
    · exact h e he
    · rw [List.mem_singleton] at he
      rw [he]
      simp

theorem generate_random_graph_wf {σ : Type} (rng : RNGOps σ)
    (capacitors : List ℚ) (mi : Nat) (s : σ) (hc : ¬capacitors.isEmpty = true) :
    ∃ G s', generate_random_graph rng capacitors mi s = (.ok G, s') ∧
      "A" ∈ G.nodes ∧ "B" ∈ G.nodes ∧ ∀ e ∈ G.edges, e.2.2 ≠ none := by
  rw [generate_random_graph, if_neg hc]
  refine ⟨_, _, rfl, by simp, by simp, ?_⟩
  exact edges_fold_all_some rng capacitors _ _ ([], _) (by simp)

theorem _ensure_connected_wf {σ : Type} (rng : RNGOps σ) (graph : SGraph)
    (capacitors : List ℚ) (s : σ) (a b : String) (flag : Bool) (G' : SGraph)
    (s' : σ) (h : _ensure_connected rng graph capacitors s a b = ((flag, G'), s')) :
    G'.nodes = graph.nodes ∧
      ((∀ e ∈ graph.edges, e.2.2 ≠ none) → ∀ e ∈ G'.edges, e.2.2 ≠ none) := by
  rw [_ensure_connected] at h
  split at h
  · cases h
    exact ⟨rfl, fun hw => hw⟩
  split at h
  · cases h
    exact ⟨rfl, fun hw => hw⟩
  split at h
  · cases h
    exact ⟨rfl, fun hw => hw⟩
  · cases h
    refine ⟨rfl, fun hw e he => ?_⟩
    rw [List.mem_append] at he
    rcases he with he | he
    · exact hw e he
    · rw [List.mem_singleton] at he
      rw [he]
      simp

theorem generate_connected_graph_wf {σ : Type} (rng : RNGOps σ)
    (capacitors : List ℚ) (mi : Nat) (hc : ¬capacitors.isEmpty = true) :
    ∀ (attempts : Nat) (s : σ),
      ∃ o s', generate_connected_graph rng capacitors mi attempts s = (.ok o, s') ∧
        ∀ G, o = some G →
          "A" ∈ G.nodes ∧ "B" ∈ G.nodes ∧ ∀ e ∈ G.edges, e.2.2 ≠ none := by
  intro attempts
  induction attempts with
  | zero =>
    intro s
    exact ⟨none, s, rfl, by intro G hG; cases hG⟩
  | succ k ih =>
    intro s
    obtain ⟨G, s', hgrg, hA, hB, hW⟩ := generate_random_graph_wf rng capacitors mi s hc
    rcases hens : _ensure_connected rng G capacitors s' "A" "B" with ⟨⟨flag, G''⟩, s''⟩
    obtain ⟨hnodes, hWimp⟩ :=
      _ensure_connected_wf rng G capacitors s' "A" "B" flag G'' s'' hens
    rw [generate_connected_graph, hgrg]
    dsimp only
    rw [hens]
    cases flag with
    | true =>
      dsimp only
      by_cases hconn : is_connected_between_terminals G'' "A" "B" = true
      · rw [if_pos hconn]
        refine ⟨some G'', s'', rfl, ?_⟩
        intro G₀ hG₀
        injection hG₀ with h
        subst h
        exact ⟨hnodes ▸ hA, hnodes ▸ hB, hWimp hW⟩
      · rw [if_neg hconn]
        exact ih s''
    | false =>
      dsimp only
      exact ih s''

theorem sumEdgeWeights_ok (edges : List (String × String × Option ℚ))
    (h : ∀ e ∈ edges, e.2.2 ≠ none) : ∃ t, sumEdgeWeights edges = .ok t := by
  induction edges with
  | nil => exact ⟨0, rfl⟩
  | cons e rest ih =>
    obtain ⟨u, v, w⟩ := e
    match w, h (u, v, w) (by simp) with
    | some c, _ =>
      obtain ⟨t, ht⟩ := ih (fun e he => h e (List.mem_cons_of_mem _ he))
      exact ⟨c + t, by rw [sumEdgeWeights, ht]; rfl⟩

theorem calculate_graph_ceq_ok (solver : SolverT) (g : SGraph) (a b : String)
    (ha : a ∈ g.nodes) (hb : b ∈ g.nodes)
    (hw : ∀ e ∈ g.edges, e.2.2 ≠ none) :
    ∃ r, calculate_graph_ceq solver g a b = .ok r := by
  rw [calculate_graph_ceq, if_neg (not_not_intro ha), if_neg (not_not_intro hb)]
  by_cases hconn : is_connected_between_terminals g a b = true
  · rw [if_neg (by rw [hconn]; simp)]
    by_cases h2 : g.nodes.length = 2
    · rw [if_pos h2]
      obtain ⟨t, ht⟩ := sumEdgeWeights_ok g.edges hw
      exact ⟨(t, none), by rw [ht]; rfl⟩
    · rw [if_neg h2]
      obtain ⟨L, hok, _⟩ :=
        lapFold_closed (fun nd => g.nodes.indexOf nd) g.edges (fun _ _ => 0) hw
      rw [build_laplacian_matrix, hok, exceptBind_ok, exceptBind_ok]
      by_cases hint : ((List.range g.nodes.length).filter
          (fun i => decide (i ≠ g.nodes.indexOf a)
            && decide (i ≠ g.nodes.indexOf b))).isEmpty = true
      · rw [if_pos hint]
        exact ⟨_, rfl⟩
      · rw [if_neg hint]
        exact ⟨_, rfl⟩
  · rw [Bool.not_eq_true] at hconn
    rw [if_pos (by rw [hconn]; rfl)]
    exact ⟨(0, some "No path between A and B"), rfl⟩

theorem hs_loop_ok {σ : Type} (rng : RNGOps σ) (solver : SolverT)
    (capacitors : List ℚ) (target tolerance : ℚ) (mi : Nat)
    (hc : ¬capacitors.isEmpty = true) (ht : ¬target = 0) :
    ∀ (k : Nat) (s : σ) (acc : List (Solution (GraphTopology SGraph))),
      ∃ pool, hs_loop rng solver capacitors target tolerance mi k s acc
        = .ok pool := by
  intro k
  induction k with
  | zero => intro s acc; exact ⟨acc, rfl⟩
  | succ k ih =>
    intro s acc
    obtain ⟨o, s', hgcg, hres⟩ := generate_connected_graph_wf rng capacitors mi hc 10 s
    rw [hs_loop, hgcg]
    match o, hres with
    | none, _ =>
      dsimp only
      exact ih s' acc
    | some G, hres =>
      obtain ⟨hA, hB, hW⟩ := hres G rfl
      obtain ⟨⟨ceq, warn⟩, hcalc⟩ := calculate_graph_ceq_ok solver G "A" "B" hA hB hW
      dsimp only
      rw [hcalc, exceptBind_ok]
      dsimp only
      by_cases hle : ceq ≤ 0
      · rw [if_pos hle]
        exact ih s' acc
      · rw [if_neg hle, calculate_relative_error, if_neg ht, exceptBind_ok]
        exact ih s' _

/-- C10 (amended): `heuristic_search` validates the target (must be
positive), the iteration count (at least 1) and the capacitor list
(non-empty), but does *not* validate the tolerance: with any tolerance —
negative included — and otherwise valid inputs, the call returns a
solution list instead of raising. -/
theorem heuristic_search_validation {σ : Type} (rng : RNGOps σ)
    (solver : SolverT) (capacitors : List ℚ) (target : ℚ)
    (iterations max_internal_nodes seed : Nat) (tolerance : ℚ) (top_k : Nat) :
    (target ≤ 0 →
      heuristic_search rng solver capacitors target iterations
          max_internal_nodes seed tolerance top_k
        = .error (.valueError "Target capacitance must be positive")) ∧
    (0 < target → iterations < 1 →
      heuristic_search rng solver capacitors target iterations
          max_internal_nodes seed tolerance top_k
        = .error (.valueError "Iterations must be at least 1")) ∧
    (0 < target → 1 ≤ iterations → capacitors = [] →
      heuristic_search rng solver capacitors target iterations
          max_internal_nodes seed tolerance top_k
        = .error (.valueError "Cannot search with no capacitors")) ∧
    (0 < target → 1 ≤ iterations → capacitors ≠ [] →
      ∃ sols, heuristic_search rng solver capacitors target iterations
          max_internal_nodes seed tolerance top_k = .ok sols) := by
  refine ⟨?_, ?_, ?_, ?_⟩
  · intro h
    rw [heuristic_search, if_pos h]
  · intro h hi
    rw [heuristic_search, if_neg (not_le.mpr h), if_pos hi]
  · intro h hi hc
    rw [heuristic_search, if_neg (not_le.mpr h), if_neg (by omega), if_pos (by
      rw [hc]; rfl)]
  · intro h hi hc
    have hce : ¬capacitors.isEmpty = true := by
      simpa [List.isEmpty_iff] using hc
    rw [heuristic_search, if_neg (not_le.mpr h), if_neg (by omega), if_neg hce]
    obtain ⟨pool, hpool⟩ := hs_loop_ok rng solver capacitors target tolerance
      max_internal_nodes hce (by exact h.ne') iterations (rng.fromSeed seed) []
    dsimp only
    rw [hpool, exceptBind_ok]
    exact ⟨_, rfl⟩

/-- A concrete deterministic instantiation of the abstract random
generator, used for the concrete evaluations below. -/
def unitRNG : RNGOps Unit where
  fromSeed := fun _ => ()
  integers := fun lo _ s => (lo, s)
  choiceIdx := fun _ s => (0, s)
  choiceSample := fun _ k s => (List.range k, s)

/-- C10 counterexample: with a negative tolerance (and otherwise valid
inputs) `heuristic_search` does not raise a validation error — it runs
to completion and returns a solution list (here, one solution whose
`within_tolerance` flag is `False`).  Lines 256-262 of `heuristics.py`
check the target, the iteration count and the capacitor list, but never
the tolerance. -/
theorem heuristic_search_negative_tolerance_returns :
    ((-1 : ℚ) < 0) ∧
    ∃ sols, heuristic_search unitRNG zeroSolver [1] 1 1 0 0 (-1) 10
      = .ok sols := by
  refine ⟨by norm_num, ?_⟩
  rw [heuristic_search, if_neg (by norm_num), if_neg (by norm_num),
    if_neg (by simp)]
  obtain ⟨pool, hpool⟩ := hs_loop_ok unitRNG zeroSolver [1] 1 (-1) 0
    (by simp) (by norm_num) 1 (unitRNG.fromSeed 0) []
  dsimp only
  rw [hpool, exceptBind_ok]
  exact ⟨_, rfl⟩

/-- Witness for C10 (amended): all four clauses at concrete inputs,
the last one with the negative tolerance `-1`. -/
theorem heuristic_search_validation_witness :
    (heuristic_search unitRNG zeroSolver [1] 0 1 0 0 5 10
      = .error (.valueError "Target capacitance must be positive")) ∧
    (heuristic_search unitRNG zeroSolver [1] 1 0 0 0 5 10
      = .error (.valueError "Iterations must be at least 1")) ∧
    (heuristic_search unitRNG zeroSolver [] 1 1 0 0 5 10
      = .error (.valueError "Cannot search with no capacitors")) ∧
    (∃ sols, heuristic_search unitRNG zeroSolver [1] 1 1 0 0 (-1) 10
      = .ok sols) :=
  ⟨(heuristic_search_validation unitRNG zeroSolver [1] 0 1 0 0 5 10).1
      (by norm_num),
    (heuristic_search_validation unitRNG zeroSolver [1] 1 0 0 0 5 10).2.1
      (by norm_num) (by norm_num),
    (heuristic_search_validation unitRNG zeroSolver [] 1 1 0 0 5 10).2.2.1
      (by norm_num) (by norm_num) rfl,
    (heuristic_search_validation unitRNG zeroSolver [1] 1 1 0 0 (-1) 10).2.2.2
      (by norm_num) (by norm_num) (by simp)⟩

/-- C5: `heuristic_search` is deterministic in its inputs: two calls
with the same random-generator model, solver, capacitors, target,
iteration count, internal-node bound, seed, tolerance and top-K produce
identical ranked output.  In the embedding every source of randomness is
the seeded generator state threaded explicitly through the computation,
so the result is a pure function of the listed arguments. -/
theorem heuristic_search_deterministic {σ : Type} (rng : RNGOps σ)
    (solver : SolverT) (capacitors₁ capacitors₂ : List ℚ) (target₁ target₂ : ℚ)
    (iterations₁ iterations₂ mi₁ mi₂ seed₁ seed₂ : Nat)
    (tolerance₁ tolerance₂ : ℚ) (top_k₁ top_k₂ : Nat)
    (h₁ : capacitors₁ = capacitors₂) (h₂ : target₁ = target₂)
    (h₃ : iterations₁ = iterations₂) (h₄ : mi₁ = mi₂) (h₅ : seed₁ = seed₂)
    (h₆ : tolerance₁ = tolerance₂) (h₇ : top_k₁ = top_k₂) :
    heuristic_search rng solver capacitors₁ target₁ iterations₁ mi₁ seed₁
        tolerance₁ top_k₁
      = heuristic_search rng solver capacitors₂ target₂ iterations₂ mi₂ seed₂
        tolerance₂ top_k₂ := by
  subst h₁
  subst h₂
  subst h₃
  subst h₄
  subst h₅
  subst h₆
  subst h₇
  rfl

/-- Witness for C5 at concrete inputs. -/
theorem heuristic_search_deterministic_witness :
    heuristic_search unitRNG zeroSolver [1] 1 2 1 42 5 10
      = heuristic_search unitRNG zeroSolver [1] 1 2 1 42 5 10 :=
  heuristic_search_deterministic unitRNG zeroSolver [1] [1] 1 1 2 2 1 1 42 42
    5 5 10 10 rfl rfl rfl rfl rfl rfl rfl

/-! ## `sp_graph_exhaustive.py`: multigraph model and SP reduction

`networkx.MultiGraph` instances are modelled by a node list plus an
undirected edge list in which several entries may connect the same node
pair (the entry position plays the role of the edge key).  Nodes are the
natural numbers `range(v)` produced by `generate_topologies`. -/

/-- A `networkx.MultiGraph` whose edges carry a `capacity` weight. -/
structure MGraph where
  nodes : List Nat
  edges : List (Nat × Nat × ℚ)
deriving DecidableEq, Repr

/-- Whether an (undirected) edge entry connects `u` and `v`. -/
def betweenb (u v : Nat) (e : Nat × Nat × ℚ) : Bool :=
  (decide (e.1 = u) && decide (e.2.1 = v)) || (decide (e.1 = v) && decide (e.2.1 = u))

/-- `G.number_of_edges(u, v)`: the number of parallel edges between a
node pair (a self-loop entry is counted once). -/
def edgeMultiplicity (g : MGraph) (u v : Nat) : Nat :=
  (g.edges.filter (betweenb u v)).length

/-- The sum of the weights of all edges between `u` and `v`. -/
def weightSumBetween (g : MGraph) (u v : Nat) : ℚ :=
  ((g.edges.filter (betweenb u v)).map (fun e => e.2.2)).sum

/-- `list(G[u][v].values())[0]['capacity']`: the weight of the first
edge between `u` and `v`. -/
def firstWeightBetween (g : MGraph) (u v : Nat) : ℚ :=
  ((g.edges.filter (betweenb u v)).map (fun e => e.2.2)).headI

/-- The contribution of one edge entry to `G.degree(n)` (a self-loop
counts twice). -/
def edgeContrib (n : Nat) (e : Nat × Nat × ℚ) : Nat :=
  (if e.1 = n then 1 else 0) + (if e.2.1 = n then 1 else 0)

/-- `G.degree(n)` on a multigraph. -/
def degree (g : MGraph) (n : Nat) : Nat :=
  (g.edges.map (edgeContrib n)).sum

/-- `tuple(sorted((u, v)))` from the parallel-reduction scan. -/
def normPair (u v : Nat) : Nat × Nat :=
  if u ≤ v then (u, v) else (v, u)

/-- The parallel bundles found by one scan (lines 144-161 of
`sp_graph_exhaustive.py`): every unordered pair carrying more than one
edge, each pair listed once. -/
def bundles (g : MGraph) : List (Nat × Nat) :=
  ((g.edges.map (fun e => normPair e.1 e.2.1)).dedup).filter
    (fun p => decide (1 < edgeMultiplicity g p.1 p.2))

/-- One full parallel-reduction pass (lines 142-172): all bundles are
replaced simultaneously by single summed edges; `none` when no bundle
exists (`changed` stays false). -/
def parallelPhase (g : MGraph) : Option MGraph :=
  let bs := bundles g
  if bs.isEmpty then none
  else
    some
      { nodes := g.nodes,
        edges :=
          g.edges.filter (fun e => !(bs.contains (normPair e.1 e.2.1)))
            ++ bs.map (fun p => (p.1, p.2, weightSumBetween g p.1 p.2)) }

/-- `list(G.neighbors(n))`: the distinct adjacent nodes, in node-list
order (`n` itself included when it has a self-loop). -/
def neighborsDistinct (g : MGraph) (n : Nat) : List Nat :=
  g.nodes.filter (fun v => decide (0 < edgeMultiplicity g n v))

/-- The scan for the first non-terminal degree-2 node
(lines 176-182 of `sp_graph_exhaustive.py`). -/
def findSeriesNode (g : MGraph) (a b : Nat) : Option Nat :=
  g.nodes.find? (fun n => decide (n ≠ a) && decide (n ≠ b)
    && decide (degree g n = 2))

/-- `G.remove_node(n)`: drop the node and all incident edges. -/
def removeNode (g : MGraph) (n : Nat) : MGraph :=
  { nodes := g.nodes.filter (fun m => decide (m ≠ n)),
    edges := g.edges.filter (fun e => decide (e.1 ≠ n) && decide (e.2.1 ≠ n)) }

/-- One series-reduction step (lines 184-211): the first eligible node
is contracted (two distinct neighbors) or pruned (one distinct
neighbor); Python's `1.0/(1.0/c1 + 1.0/c2)` raises `ZeroDivisionError`
when a weight or the reciprocal sum is zero, modelled by the guard.
The remaining branch (no distinct neighbor at all) is unreachable for a
degree-2 node of a well-formed graph and reports no change. -/
def seriesPhase (g : MGraph) (a b : Nat) : Option (Except PyError MGraph) :=
  match findSeriesNode g a b with
  | none => none
  | some series_node =>
    let neighbors := neighborsDistinct g series_node
    if neighbors.length = 2 then
      let u := neighbors.headI
      let v := neighbors.getD 1 0
      let c1 := firstWeightBetween g u series_node
      let c2 := firstWeightBetween g series_node v
      if c1 = 0 ∨ c2 = 0 ∨ 1 / c1 + 1 / c2 = 0 then
        some (.error (.zeroDivisionError "float division by zero"))
      else
        some (.ok
          { nodes := (removeNode g series_node).nodes,
            edges := (removeNode g series_node).edges
              ++ [(u, v, 1 / (1 / c1 + 1 / c2))] })
    else if neighbors.length = 1 then
      some (.ok (removeNode g series_node))
    else
      none

/-- One iteration of the `while changed` loop of `is_sp_reducible`
(lines 138-211): the parallel pass runs first and restarts the loop when
it changed anything; otherwise one series reduction is attempted. -/
def reduceStep (g : MGraph) (a b : Nat) : Option (Except PyError MGraph) :=
  match parallelPhase g with
  | some g' => some (.ok g')
  | none => seriesPhase g a b

/-- Node count plus edge count; strictly decreases at every applied
reduction, so it bounds the number of loop iterations. -/
def graphMeasure (g : MGraph) : Nat := g.nodes.length + g.edges.length

/-- The `while changed` loop run to quiescence (fuel-bounded; the fuel
`graphMeasure g + 1` used below is sufficient because every applied
reduction strictly decreases `graphMeasure`). -/
def reduceLoop (a b : Nat) : Nat → MGraph → Except PyError MGraph
  | 0, g => .ok g
  | fuel + 1, g =>
    match reduceStep g a b with
    | none => .ok g
    | some (.error e) => .error e
    | some (.ok g') => reduceLoop a b fuel g'

/-- `is_sp_reducible` from `sp_graph_exhaustive.py` (lines 127-218):
run the reduction loop, then return the surviving weight exactly when
two nodes and one edge remain and that edge connects the terminals. -/
def is_sp_reducible (g : MGraph) (term_a term_b : Nat) :
    Except PyError (Option ℚ) := do
  let G ← reduceLoop term_a term_b (graphMeasure g + 1) g
  if G.nodes.length = 2 ∧ G.edges.length = 1 ∧ 0 < edgeMultiplicity G term_a term_b
  then
    .ok (some (firstWeightBetween G term_a term_b))
  else
    .ok none

/-- The two rewrite rules of the specification, as a declarative
one-step relation (graphs compared up to edge order).
`parallel`: a node pair with more than one edge between them has all of
them replaced by one edge carrying their summed weight.
`series`: a non-terminal node of degree exactly 2 with two distinct
neighbors is removed and its two incident edges are replaced by one
edge between the neighbors with weight `1/(1/w1 + 1/w2)`.
`prune`: a non-terminal degree-2 node with a single distinct neighbor
is deleted outright. -/
inductive ReduceRule (a b : Nat) : MGraph → MGraph → Prop where
  | parallel (g g' : MGraph) (u v : Nat)
      (hmult : 2 ≤ edgeMultiplicity g u v)
      (hnodes : g'.nodes = g.nodes)
      (hedges : g'.edges.Perm
        ((g.edges.filter (fun e => !(betweenb u v e)))
          ++ [(u, v, weightSumBetween g u v)])) :
      ReduceRule a b g g'
  | series (g g' : MGraph) (n u v : Nat)
      (hna : n ≠ a) (hnb : n ≠ b) (hmem : n ∈ g.nodes)
      (hdeg : degree g n = 2) (huv : u ≠ v)
      (hmu : edgeMultiplicity g n u = 1) (hmv : edgeMultiplicity g n v = 1)
      (hnodes : g'.nodes.Perm (removeNode g n).nodes)
      (hedges : g'.edges.Perm ((removeNode g n).edges
        ++ [(u, v, 1 / (1 / weightSumBetween g n u
              + 1 / weightSumBetween g n v))])) :
      ReduceRule a b g g'
  | prune (g g' : MGraph) (n : Nat)
      (hna : n ≠ a) (hnb : n ≠ b) (hmem : n ∈ g.nodes)
      (hdeg : degree g n = 2)
      (hone : ∀ w₁ w₂ : Nat, 0 < edgeMultiplicity g n w₁ →
        0 < edgeMultiplicity g n w₂ → w₁ = w₂)
      (hnodes : g'.nodes.Perm (removeNode g n).nodes)
      (hedges : g'.edges.Perm (removeNode g n).edges) :
      ReduceRule a b g g'

/-- Well-formedness of a multigraph: distinct node labels and edge
endpoints drawn from the node list (true of every graph built by
`generate_topologies` and preserved by the reduction, proved below). -/
def MGraph.WFm (g : MGraph) : Prop :=
  g.nodes.Nodup ∧ ∀ e ∈ g.edges, e.1 ∈ g.nodes ∧ e.2.1 ∈ g.nodes

theorem betweenb_comm (u v : Nat) (e : Nat × Nat × ℚ) :
    betweenb u v e = betweenb v u e := by
  simp [betweenb, Bool.or_comm]

theorem betweenb_iff (u v : Nat) (e : Nat × Nat × ℚ) :
    betweenb u v e = true ↔ (e.1 = u ∧ e.2.1 = v) ∨ (e.1 = v ∧ e.2.1 = u) := by
  simp [betweenb]

theorem edgeMultiplicity_comm (g : MGraph) (u v : Nat) :
    edgeMultiplicity g u v = edgeMultiplicity g v u := by
  unfold edgeMultiplicity
  rw [show betweenb u v = betweenb v u from funext (betweenb_comm u v)]

theorem weightSumBetween_comm (g : MGraph) (u v : Nat) :
    weightSumBetween g u v = weightSumBetween g v u := by
  unfold weightSumBetween
  rw [show betweenb u v = betweenb v u from funext (betweenb_comm u v)]

theorem firstWeightBetween_comm (g : MGraph) (u v : Nat) :
    firstWeightBetween g u v = firstWeightBetween g v u := by
  unfold firstWeightBetween
  rw [show betweenb u v = betweenb v u from funext (betweenb_comm u v)]

theorem normPair_norm (u v : Nat) : (normPair u v).1 ≤ (normPair u v).2 := by
  unfold normPair
  split
  · simpa
  · simp
    omega

theorem normPair_comm (u v : Nat) : normPair u v = normPair v u := by
  unfold normPair
  split <;> split
  · have : u = v := by omega
    rw [this]
  · rfl
  · rfl
  · omega

theorem normPair_self {p : Nat × Nat} (h : p.1 ≤ p.2) : normPair p.1 p.2 = p := by
  unfold normPair
  rw [if_pos h]

theorem edgeMultiplicity_normPair (g : MGraph) (u v : Nat) :
    edgeMultiplicity g (normPair u v).1 (normPair u v).2 = edgeMultiplicity g u v := by
  unfold normPair
  split
  · rfl
  · exact edgeMultiplicity_comm g v u

theorem normPair_eq_iff {u v : Nat} (h : u ≤ v) (x y : Nat) (w : ℚ) :
    normPair x y = (u, v) ↔ betweenb u v (x, y, w) = true := by
  rw [betweenb_iff]
  unfold normPair
  by_cases hxy : x ≤ y
  · rw [if_pos hxy]
    constructor
    · intro he
      exact Or.inl ⟨congrArg Prod.fst he, congrArg Prod.snd he⟩
    · rintro (⟨rfl, rfl⟩ | ⟨h1, h2⟩)
      · rfl
      · simp only at h1 h2
        have hx : x = u := by omega
        have hy : y = v := by omega
        rw [hx, hy]
  · rw [if_neg hxy]
    constructor
    · intro he
      exact Or.inr ⟨congrArg Prod.snd he, congrArg Prod.fst he⟩
    · rintro (⟨h1, h2⟩ | ⟨h1, h2⟩)
      · simp only at h1 h2
        subst h1
        subst h2
        exact absurd h hxy
      · simp only at h1 h2
        subst h1
        subst h2
        rfl

theorem mem_bundles {g : MGraph} {p : Nat × Nat} (hp : p ∈ bundles g) :
    p.1 ≤ p.2 ∧ 2 ≤ edgeMultiplicity g p.1 p.2 := by
  unfold bundles at hp
  rw [List.mem_filter] at hp
  obtain ⟨hmem, hmult⟩ := hp
  rw [List.mem_dedup, List.mem_map] at hmem
  obtain ⟨e, _, he⟩ := hmem
  refine ⟨?_, by simpa using hmult⟩
  rw [← he]
  exact normPair_norm _ _

theorem bundles_nodup (g : MGraph) : (bundles g).Nodup :=
  (List.nodup_dedup _).filter _

theorem bundles_endpoints {g : MGraph} {p : Nat × Nat} (hp : p ∈ bundles g)
    (hmem : ∀ e ∈ g.edges, e.1 ∈ g.nodes ∧ e.2.1 ∈ g.nodes) :
    p.1 ∈ g.nodes ∧ p.2 ∈ g.nodes := by
  unfold bundles at hp
  rw [List.mem_filter] at hp
  obtain ⟨hp, _⟩ := hp
  rw [List.mem_dedup, List.mem_map] at hp
  obtain ⟨e, hemem, he⟩ := hp
  obtain ⟨h1, h2⟩ := hmem e hemem
  rw [← he]
  unfold normPair
  split
  · exact ⟨h1, h2⟩
  · exact ⟨h2, h1⟩

theorem edgeMultiplicity_le_one_of_no_bundles {g : MGraph} (h : bundles g = []) :
    ∀ u v, edgeMultiplicity g u v ≤ 1 := by
  intro u v
  by_contra hgt
  push_neg at hgt
  have hpos : 0 < edgeMultiplicity g u v := by omega
  unfold edgeMultiplicity at hpos
  rw [List.length_pos] at hpos
  obtain ⟨e, he⟩ := List.exists_mem_of_ne_nil _ hpos
  rw [List.mem_filter] at he
  have hnp : normPair e.1 e.2.1 = normPair u v := by
    rcases (betweenb_iff u v e).mp he.2 with ⟨h1, h2⟩ | ⟨h1, h2⟩
    · rw [h1, h2]
    · rw [h1, h2]
      exact (normPair_comm v u)
  have hbm : normPair u v ∈ bundles g := by
    unfold bundles
    rw [List.mem_filter]
    constructor
    · rw [List.mem_dedup, List.mem_map]
      exact ⟨e, he.1, hnp⟩
    · rw [decide_eq_true_eq, edgeMultiplicity_normPair]
      omega
  rw [h] at hbm
  simp at hbm

theorem length_filter_lt {α : Type} (l : List α) (p : α → Bool) (x : α)
    (hx : x ∈ l) (hpx : p x = false) : (l.filter p).length < l.length :=
  List.length_filter_lt_length_iff_exists.mpr ⟨x, hx, by simp [hpx]⟩

theorem sum_map_pos_mem {α : Type} (l : List α) (f : α → Nat)
    (h : 0 < (l.map f).sum) : ∃ x ∈ l, 0 < f x := by
  by_contra hc
  push_neg at hc
  have hz : (l.map f).sum = 0 := List.sum_eq_zero_iff.mpr (by
    intro y hy
    rw [List.mem_map] at hy
    obtain ⟨x, hx, rfl⟩ := hy
    have := hc x hx
    omega)
  omega

theorem length_le_sum_map {α : Type} (l : List α) (f : α → Nat)
    (h : ∀ x ∈ l, 1 ≤ f x) : l.length ≤ (l.map f).sum := by
  induction l with
  | nil => simp
  | cons x xs ih =>
    simp only [List.map_cons, List.sum_cons, List.length_cons]
    have h1 := h x (by simp)
    have h2 := ih (fun y hy => h y (List.mem_cons_of_mem _ hy))
    omega

theorem sum_map_add_split {α : Type} (l : List α) (f g : α → Nat) :
    (l.map (fun x => f x + g x)).sum = (l.map f).sum + (l.map g).sum := by
  induction l with
  | nil => rfl
  | cons x xs ih =>
    simp only [List.map_cons, List.sum_cons, ih]
    omega

theorem length_filter_or {α : Type} (l : List α) (P Q : α → Bool) :
    (l.filter (fun x => P x || Q x)).length
      = (l.filter P).length + ((l.filter (fun x => !P x)).filter Q).length := by
  induction l with
  | nil => rfl
  | cons x xs ih =>
    by_cases hP : P x <;> by_cases hQ : Q x <;>
      simp [List.filter_cons, hP, hQ, ih] <;> omega

theorem sum_indicator_le_one {S : List Nat} (hS : S.Nodup) (c : Nat) :
    (S.map (fun w => if w = c then 1 else 0)).sum ≤ 1 := by
  induction S with
  | nil => simp
  | cons x xs ih =>
    rw [List.nodup_cons] at hS
    by_cases hx : x = c
    · subst hx
      have hz : (xs.map (fun w => if w = x then 1 else 0)).sum = 0 :=
        List.sum_eq_zero_iff.mpr (by
          intro y hy
          rw [List.mem_map] at hy
          obtain ⟨w, hw, rfl⟩ := hy
          have hne : w ≠ x := fun h => hS.1 (h ▸ hw)
          simp [hne])
      simp [hz]
    · simp only [List.map_cons, List.sum_cons, if_neg hx]
      have := ih hS.2
      omega

/-- The effect of the parallel rule on one bundle pair. -/
def mergeOne (g : MGraph) (p : Nat × Nat) : MGraph :=
  { nodes := g.nodes,
    edges := g.edges.filter (fun e => !(betweenb p.1 p.2 e))
      ++ [(p.1, p.2, weightSumBetween g p.1 p.2)] }

/-- The simultaneous merge of a list of bundles, as performed by one
parallel pass of `is_sp_reducible`. -/
def mergeAll (g : MGraph) (bs : List (Nat × Nat)) : MGraph :=
  { nodes := g.nodes,
    edges := g.edges.filter (fun e => !(bs.contains (normPair e.1 e.2.1)))
      ++ bs.map (fun p => (p.1, p.2, weightSumBetween g p.1 p.2)) }

theorem parallelPhase_eq_mergeAll {g g' : MGraph}
    (h : parallelPhase g = some g') :
    g' = mergeAll g (bundles g) ∧ bundles g ≠ [] := by
  unfold parallelPhase at h
  by_cases hbs : (bundles g).isEmpty
  · rw [if_pos hbs] at h
    exact absurd h (by simp)
  · rw [if_neg hbs] at h
    refine ⟨(Option.some_injective _ h).symm, ?_⟩
    intro hnil
    rw [hnil] at hbs
    exact hbs rfl

theorem filter_betweenb_mergeOne {g : MGraph} {p q : Nat × Nat}
    (hp : p.1 ≤ p.2) (hq : q.1 ≤ q.2) (hne : q ≠ p) :
    (mergeOne g p).edges.filter (betweenb q.1 q.2)
      = g.edges.filter (betweenb q.1 q.2) := by
  unfold mergeOne
  rw [List.filter_append]
  have h1 : List.filter (betweenb q.1 q.2)
      [(p.1, p.2, weightSumBetween g p.1 p.2)] = [] := by
    have hb : betweenb q.1 q.2 (p.1, p.2, weightSumBetween g p.1 p.2) = false := by
      by_contra hb
      rw [Bool.not_eq_false] at hb
      have hb' : normPair p.1 p.2 = (q.1, q.2) :=
        (normPair_eq_iff hq p.1 p.2 (weightSumBetween g p.1 p.2)).mpr hb
      rw [normPair_self hp, Prod.mk.eta] at hb'
      exact hne hb'.symm
    simp [List.filter_cons, hb]
  rw [h1, List.append_nil, List.filter_filter]
  apply List.filter_congr
  intro e _
  by_cases hb : betweenb q.1 q.2 e = true
  · have hbp : betweenb p.1 p.2 e = false := by
      by_contra hbp
      rw [Bool.not_eq_false] at hbp
      have h1 : normPair e.1 e.2.1 = (q.1, q.2) :=
        (normPair_eq_iff hq e.1 e.2.1 e.2.2).mpr hb
      have h2 : normPair e.1 e.2.1 = (p.1, p.2) :=
        (normPair_eq_iff hp e.1 e.2.1 e.2.2).mpr hbp
      rw [h1] at h2
      rw [Prod.mk.eta] at h2
      exact hne (h2.trans Prod.mk.eta)
    rw [hb, hbp]
    rfl
  · rw [Bool.not_eq_true] at hb
    rw [hb]
    rfl

theorem edgeMultiplicity_mergeOne_other {g : MGraph} {p q : Nat × Nat}
    (hp : p.1 ≤ p.2) (hq : q.1 ≤ q.2) (hne : q ≠ p) :
    edgeMultiplicity (mergeOne g p) q.1 q.2 = edgeMultiplicity g q.1 q.2 := by
  unfold edgeMultiplicity
  rw [filter_betweenb_mergeOne hp hq hne]

theorem weightSumBetween_mergeOne_other {g : MGraph} {p q : Nat × Nat}
    (hp : p.1 ≤ p.2) (hq : q.1 ≤ q.2) (hne : q ≠ p) :
    weightSumBetween (mergeOne g p) q.1 q.2 = weightSumBetween g q.1 q.2 := by
  unfold weightSumBetween
  rw [filter_betweenb_mergeOne hp hq hne]

theorem mergeAll_cons (g : MGraph) (p : Nat × Nat) (rest : List (Nat × Nat))
    (hp : p.1 ≤ p.2) (hrest : ∀ q ∈ rest, q.1 ≤ q.2) (hnp : p ∉ rest) :
    mergeAll (mergeOne g p) rest = mergeAll g (p :: rest) := by
  have hmap : rest.map
        (fun q => (q.1, q.2, weightSumBetween (mergeOne g p) q.1 q.2))
      = rest.map (fun q => (q.1, q.2, weightSumBetween g q.1 q.2)) := by
    apply List.map_congr_left
    intro q hq
    rw [weightSumBetween_mergeOne_other hp (hrest q hq)
      (fun h : q = p => hnp (h ▸ hq))]
  have hcf : rest.contains p = false := by
    apply Bool.eq_false_iff.mpr
    intro h
    exact hnp (List.elem_iff.mp h)
  have hfilter : (mergeOne g p).edges.filter
        (fun e => !(rest.contains (normPair e.1 e.2.1)))
      = g.edges.filter
          (fun e => !((p :: rest).contains (normPair e.1 e.2.1)))
        ++ [(p.1, p.2, weightSumBetween g p.1 p.2)] := by
    unfold mergeOne
    rw [List.filter_append]
    have hx : List.filter (fun e => !(rest.contains (normPair e.1 e.2.1)))
        [(p.1, p.2, weightSumBetween g p.1 p.2)]
        = [(p.1, p.2, weightSumBetween g p.1 p.2)] := by
      have : normPair (p.1, p.2, weightSumBetween g p.1 p.2).1
          (p.1, p.2, weightSumBetween g p.1 p.2).2.1 = p := by
        rw [normPair_self hp]
      simp [List.filter_cons, this, hnp]
    rw [hx, List.filter_filter]
    congr 1
    apply List.filter_congr
    intro e _
    by_cases hb : betweenb p.1 p.2 e = true
    · have hx2 : normPair e.1 e.2.1 = p := by
        rw [(normPair_eq_iff hp e.1 e.2.1 e.2.2).mpr hb]
      have hc : (p :: rest).contains (normPair e.1 e.2.1) = true := by
        apply List.elem_iff.mpr
        rw [hx2]
        exact List.mem_cons_self p rest
      rw [hb, hc]
      simp
    · have hx2 : (normPair e.1 e.2.1 == p) = false := by
        apply beq_eq_false_iff_ne.mpr
        intro hcontra
        apply hb
        apply (normPair_eq_iff hp e.1 e.2.1 e.2.2).mp
        rw [hcontra]
      rw [Bool.not_eq_true] at hb
      rw [hb, List.contains_cons, hx2]
      simp
  have hedges : (mergeAll (mergeOne g p) rest).edges
      = (mergeAll g (p :: rest)).edges := by
    show (mergeOne g p).edges.filter
          (fun e => !(rest.contains (normPair e.1 e.2.1)))
        ++ rest.map
          (fun q => (q.1, q.2, weightSumBetween (mergeOne g p) q.1 q.2))
      = g.edges.filter
          (fun e => !((p :: rest).contains (normPair e.1 e.2.1)))
        ++ (p :: rest).map (fun q => (q.1, q.2, weightSumBetween g q.1 q.2))
    rw [hfilter, hmap, List.append_assoc, List.map_cons,
      List.singleton_append]
  show MGraph.mk _ _ = MGraph.mk _ _
  rw [MGraph.mk.injEq]
  exact ⟨rfl, hedges⟩

theorem mergeAll_nil (g : MGraph) : mergeAll g [] = g := by
  cases g with
  | mk nodes edges =>
    unfold mergeAll
    rw [MGraph.mk.injEq]
    refine ⟨rfl, ?_⟩
    simp

theorem mergeAll_chain (a b : Nat) (g : MGraph) (bs : List (Nat × Nat))
    (hnd : bs.Nodup) (hnorm : ∀ p ∈ bs, p.1 ≤ p.2)
    (hmult : ∀ p ∈ bs, 2 ≤ edgeMultiplicity g p.1 p.2) :
    Relation.ReflTransGen (ReduceRule a b) g (mergeAll g bs) := by
  induction bs generalizing g with
  | nil =>
    rw [mergeAll_nil]
  | cons p rest ih =>
    rw [List.nodup_cons] at hnd
    have hp : p.1 ≤ p.2 := hnorm p (List.mem_cons_self p rest)
    have hstep : ReduceRule a b g (mergeOne g p) :=
      ReduceRule.parallel g (mergeOne g p) p.1 p.2
        (hmult p (List.mem_cons_self p rest)) rfl (List.Perm.refl _)
    have hchain : Relation.ReflTransGen (ReduceRule a b)
        (mergeOne g p) (mergeAll (mergeOne g p) rest) := by
      apply ih (mergeOne g p) hnd.2
      · intro q hq
        exact hnorm q (List.mem_cons_of_mem p hq)
      · intro q hq
        rw [edgeMultiplicity_mergeOne_other hp
          (hnorm q (List.mem_cons_of_mem p hq))
          (fun h : q = p => hnd.1 (h ▸ hq))]
        exact hmult q (List.mem_cons_of_mem p hq)
    have := Relation.ReflTransGen.head hstep hchain
    rw [mergeAll_cons g p rest hp
      (fun q hq => hnorm q (List.mem_cons_of_mem p hq)) hnd.1] at this
    exact this

theorem length_filter_split {α : Type} (l : List α) (p : α → Bool) :
    l.length = (l.filter p).length + (l.filter (fun a => !p a)).length := by
  induction l with
  | nil => rfl
  | cons x xs ih =>
    by_cases hx : p x <;> simp [List.filter_cons, hx, ih] <;> omega

theorem two_mul_le_filter_contains (l : List (Nat × Nat × ℚ))
    (bs : List (Nat × Nat)) (hnd : bs.Nodup) (hnorm : ∀ p ∈ bs, p.1 ≤ p.2)
    (hmult : ∀ p ∈ bs, 2 ≤ (l.filter (betweenb p.1 p.2)).length) :
    2 * bs.length
      ≤ (l.filter (fun e => bs.contains (normPair e.1 e.2.1))).length := by
  induction bs generalizing l with
  | nil => simp
  | cons p rest ih =>
    rw [List.nodup_cons] at hnd
    have hp := hnorm p (List.mem_cons_self p rest)
    have hsplit :
        l.filter (fun e => (p :: rest).contains (normPair e.1 e.2.1))
          = l.filter (fun e => (normPair e.1 e.2.1 == p)
              || rest.contains (normPair e.1 e.2.1)) := by
      apply List.filter_congr
      intro e _
      rw [List.contains_cons]
    rw [hsplit, length_filter_or]
    have h1 : (l.filter (fun e => normPair e.1 e.2.1 == p)).length
        = (l.filter (betweenb p.1 p.2)).length := by
      congr 1
      apply List.filter_congr
      intro e _
      by_cases hb : betweenb p.1 p.2 e = true
      · rw [hb]
        apply beq_iff_eq.mpr
        rw [(normPair_eq_iff hp e.1 e.2.1 e.2.2).mpr hb]
      · rw [Bool.not_eq_true] at hb
        rw [hb]
        apply beq_eq_false_iff_ne.mpr
        intro hcontra
        have hbt : betweenb p.1 p.2 e = true :=
          (normPair_eq_iff hp e.1 e.2.1 e.2.2).mp
            (hcontra.trans Prod.mk.eta.symm)
        rw [hb] at hbt
        exact Bool.false_ne_true hbt
    have h2 : 2 * rest.length
        ≤ ((l.filter (fun e => !(normPair e.1 e.2.1 == p))).filter
            (fun e => rest.contains (normPair e.1 e.2.1))).length := by
      refine ih _ hnd.2 (fun q hq => hnorm q (List.mem_cons_of_mem p hq)) ?_
      intro q hq
      have hfeq : (l.filter (fun e => !(normPair e.1 e.2.1 == p))).filter
            (betweenb q.1 q.2)
          = l.filter (betweenb q.1 q.2) := by
        rw [List.filter_filter]
        apply List.filter_congr
        intro e _
        by_cases hb : betweenb q.1 q.2 e = true
        · have hnq : normPair e.1 e.2.1
              = (q.1, q.2) :=
            (normPair_eq_iff (hnorm q (List.mem_cons_of_mem p hq))
              e.1 e.2.1 e.2.2).mpr hb
          have hneq : (normPair e.1 e.2.1 == p) = false := by
            apply beq_eq_false_iff_ne.mpr
            rw [hnq, Prod.mk.eta]
            intro hqp
            exact hnd.1 (hqp ▸ hq)
          rw [hb, hneq]
          rfl
        · rw [Bool.not_eq_true] at hb
          rw [hb]
          rfl
      rw [hfeq]
      exact hmult q (List.mem_cons_of_mem p hq)
    have h3 := hmult p (List.mem_cons_self p rest)
    rw [List.length_cons]
    omega

theorem parallelPhase_measure {g g' : MGraph}
    (h : parallelPhase g = some g') : graphMeasure g' < graphMeasure g := by
  obtain ⟨hg', hne⟩ := parallelPhase_eq_mergeAll h
  have hk : 1 ≤ (bundles g).length := List.length_pos.mpr hne
  have h2k := two_mul_le_filter_contains g.edges (bundles g) (bundles_nodup g)
    (fun p hp => (mem_bundles hp).1) (fun p hp => (mem_bundles hp).2)
  have hsplit := length_filter_split g.edges
    (fun e => (bundles g).contains (normPair e.1 e.2.1))
  have hlen : g'.edges.length
      = (g.edges.filter
          (fun e => !((bundles g).contains (normPair e.1 e.2.1)))).length
        + (bundles g).length := by
    rw [hg']
    show ((g.edges.filter _) ++ (bundles g).map _).length = _
    rw [List.length_append, List.length_map]
  have hnodes : g'.nodes = g.nodes := by rw [hg']; rfl
  unfold graphMeasure
  rw [hnodes, hlen]
  omega

theorem parallelPhase_WFm {g g' : MGraph} (hwf : g.WFm)
    (h : parallelPhase g = some g') : g'.WFm := by
  obtain ⟨hg', _⟩ := parallelPhase_eq_mergeAll h
  subst hg'
  obtain ⟨hnd, hmem⟩ := hwf
  refine ⟨hnd, ?_⟩
  intro e he
  have he' : e ∈ g.edges.filter
        (fun e => !((bundles g).contains (normPair e.1 e.2.1)))
      ∨ e ∈ (bundles g).map
          (fun p => (p.1, p.2, weightSumBetween g p.1 p.2)) :=
    List.mem_append.mp he
  rcases he' with h1 | h1
  · exact hmem e (List.mem_of_mem_filter h1)
  · rw [List.mem_map] at h1
    obtain ⟨p, hp, rfl⟩ := h1
    exact @bundles_endpoints g p hp hmem

theorem parallelPhase_none_bundles {g : MGraph} (h : parallelPhase g = none) :
    bundles g = [] := by
  unfold parallelPhase at h
  by_cases hbs : (bundles g).isEmpty
  · exact List.isEmpty_iff.mp hbs
  · rw [if_neg hbs] at h
    exact absurd h (by simp)

theorem length_filter_eq_sum_indicator {α : Type} (l : List α) (p : α → Bool) :
    (l.filter p).length = (l.map (fun a => if p a then 1 else 0)).sum := by
  induction l with
  | nil => rfl
  | cons x xs ih =>
    by_cases hx : p x <;> simp [List.filter_cons, hx, ih] <;> omega

theorem sum_map_swap {α β : Type} (l : List α) (m : List β) (f : α → β → Nat) :
    (l.map (fun x => (m.map (f x)).sum)).sum
      = (m.map (fun y => (l.map (fun x => f x y)).sum)).sum := by
  induction l with
  | nil => simp
  | cons x xs ih =>
    simp only [List.map_cons, List.sum_cons, ih, ← sum_map_add_split]

theorem sum_indicator_le_contrib (S : List Nat) (hS : S.Nodup) (n : Nat)
    (e : Nat × Nat × ℚ) :
    (S.map (fun w => if betweenb n w e then 1 else 0)).sum
      ≤ edgeContrib n e := by
  unfold edgeContrib
  by_cases h1 : e.1 = n <;> by_cases h2 : e.2.1 = n
  · have hfn : ∀ w, (if betweenb n w e then (1 : Nat) else 0)
        = if w = n then 1 else 0 := by
      intro w
      by_cases hw : w = n
      · subst hw
        simp [betweenb, h1, h2]
      · simp [betweenb, h1, h2, hw, Ne.symm hw]
    rw [List.map_congr_left (fun w _ => hfn w)]
    have := sum_indicator_le_one hS n
    rw [if_pos h1, if_pos h2]
    omega
  · have hfn : ∀ w, (if betweenb n w e then (1 : Nat) else 0)
        = if w = e.2.1 then 1 else 0 := by
      intro w
      by_cases hw : w = e.2.1
      · subst hw
        simp [betweenb, h1]
      · have hne2 : e.2.1 ≠ w := fun h => hw h.symm
        simp [betweenb, h1, h2, hw, hne2]
    rw [List.map_congr_left (fun w _ => hfn w)]
    have := sum_indicator_le_one hS e.2.1
    rw [if_pos h1, if_neg h2]
    omega
  · have hfn : ∀ w, (if betweenb n w e then (1 : Nat) else 0)
        = if w = e.1 then 1 else 0 := by
      intro w
      by_cases hw : w = e.1
      · subst hw
        simp [betweenb, h2]
      · have hne1 : e.1 ≠ w := fun h => hw h.symm
        simp [betweenb, h1, h2, hw, hne1]
    rw [List.map_congr_left (fun w _ => hfn w)]
    have := sum_indicator_le_one hS e.1
    rw [if_neg h1, if_pos h2]
    omega
  · have hfn : ∀ w, (if betweenb n w e then (1 : Nat) else 0) = 0 := by
      intro w
      simp [betweenb, h1, h2]
    rw [List.map_congr_left (fun w _ => hfn w)]
    simp

theorem sum_mult_le_degree (g : MGraph) (S : List Nat) (hS : S.Nodup)
    (n : Nat) :
    (S.map (fun w => edgeMultiplicity g n w)).sum ≤ degree g n := by
  have h1 : ∀ w, edgeMultiplicity g n w
      = (g.edges.map (fun e => if betweenb n w e then 1 else 0)).sum := by
    intro w
    unfold edgeMultiplicity
    exact length_filter_eq_sum_indicator g.edges (betweenb n w)
  calc (S.map (fun w => edgeMultiplicity g n w)).sum
      = (S.map (fun w =>
          (g.edges.map (fun e => if betweenb n w e then 1 else 0)).sum)).sum := by
        rw [List.map_congr_left (fun w _ => h1 w)]
    _ = (g.edges.map (fun e =>
          (S.map (fun w => if betweenb n w e then 1 else 0)).sum)).sum :=
        sum_map_swap S g.edges _
    _ ≤ degree g n :=
        List.sum_le_sum (fun e _ => sum_indicator_le_contrib S hS n e)

theorem exists_edge_of_mult_pos {g : MGraph} {u v : Nat}
    (h : 0 < edgeMultiplicity g u v) :
    ∃ e ∈ g.edges, betweenb u v e = true := by
  unfold edgeMultiplicity at h
  rw [List.length_pos] at h
  obtain ⟨e, he⟩ := List.exists_mem_of_ne_nil _ h
  rw [List.mem_filter] at he
  exact ⟨e, he.1, he.2⟩

theorem mult_pos_of_edge {g : MGraph} {u v : Nat} {e : Nat × Nat × ℚ}
    (hmem : e ∈ g.edges) (hb : betweenb u v e = true) :
    0 < edgeMultiplicity g u v := by
  unfold edgeMultiplicity
  rw [List.length_pos]
  exact List.ne_nil_of_mem (List.mem_filter_of_mem hmem hb)

theorem mem_neighborsDistinct_of_mult_pos {g : MGraph} (hwf : g.WFm)
    {n w : Nat} (h : 0 < edgeMultiplicity g n w) :
    w ∈ neighborsDistinct g n := by
  obtain ⟨e, hemem, hb⟩ := exists_edge_of_mult_pos h
  have hw : w ∈ g.nodes := by
    rcases (betweenb_iff n w e).mp hb with ⟨h1, h2⟩ | ⟨h1, h2⟩
    · exact h2 ▸ (hwf.2 e hemem).2
    · exact h1 ▸ (hwf.2 e hemem).1
  unfold neighborsDistinct
  rw [List.mem_filter]
  exact ⟨hw, by simp only [decide_eq_true_eq]; exact h⟩

theorem neighbors_len_pos {g : MGraph} (hwf : g.WFm) {n : Nat}
    (hdeg : degree g n = 2) : 0 < (neighborsDistinct g n).length := by
  have hpos : 0 < (g.edges.map (edgeContrib n)).sum := by
    unfold degree at hdeg
    omega
  obtain ⟨e, hemem, hc⟩ := sum_map_pos_mem _ _ hpos
  unfold edgeContrib at hc
  by_cases h1 : e.1 = n
  · have hb : betweenb n e.2.1 e = true := by simp [betweenb, h1]
    have := mem_neighborsDistinct_of_mult_pos hwf (mult_pos_of_edge hemem hb)
    exact List.length_pos.mpr (List.ne_nil_of_mem this)
  · have h2 : e.2.1 = n := by
      by_contra h2
      simp [h1, h2] at hc
    have hb : betweenb n e.1 e = true := by simp [betweenb, h2]
    have := mem_neighborsDistinct_of_mult_pos hwf (mult_pos_of_edge hemem hb)
    exact List.length_pos.mpr (List.ne_nil_of_mem this)

theorem neighbors_len_le_two {g : MGraph} (hwf : g.WFm) {n : Nat}
    (hdeg : degree g n = 2) : (neighborsDistinct g n).length ≤ 2 := by
  have hnd : (neighborsDistinct g n).Nodup := hwf.1.filter _
  have h1 : ∀ w ∈ neighborsDistinct g n, 1 ≤ edgeMultiplicity g n w := by
    intro w hw
    unfold neighborsDistinct at hw
    simp only [List.mem_filter, decide_eq_true_eq] at hw
    omega
  have h2 : (neighborsDistinct g n).length
      ≤ ((neighborsDistinct g n).map (fun w => edgeMultiplicity g n w)).sum :=
    length_le_sum_map _ _ h1
  have h3 := sum_mult_le_degree g (neighborsDistinct g n) hnd n
  omega

theorem single_le_sum_map {α : Type} (l : List α) (f : α → Nat) (x : α)
    (hx : x ∈ l) : f x ≤ (l.map f).sum := by
  induction l with
  | nil => cases hx
  | cons z zs ih =>
    rw [List.map_cons, List.sum_cons]
    rcases List.mem_cons.mp hx with rfl | hx'
    · omega
    · have := ih hx'
      omega

theorem pair_le_sum_map {α : Type} (l : List α) (f : α → Nat) (x y : α)
    (hx : x ∈ l) (hy : y ∈ l) (hne : x ≠ y) :
    f x + f y ≤ (l.map f).sum := by
  induction l with
  | nil => cases hx
  | cons z zs ih =>
    rw [List.map_cons, List.sum_cons]
    rcases List.mem_cons.mp hx with rfl | hx'
    · rcases List.mem_cons.mp hy with h | hy'
      · exact absurd h.symm hne
      · have := single_le_sum_map zs f y hy'
        omega
    · rcases List.mem_cons.mp hy with rfl | hy'
      · have := single_le_sum_map zs f x hx'
        omega
      · have := ih hx' hy'
        omega

theorem not_self_neighbor {g : MGraph} {n w : Nat}
    (hdeg : degree g n = 2) (hself : 0 < edgeMultiplicity g n n)
    (hw : 0 < edgeMultiplicity g n w) (hwn : w ≠ n) : False := by
  obtain ⟨e0, he0m, he0b⟩ := exists_edge_of_mult_pos hself
  obtain ⟨e1, he1m, he1b⟩ := exists_edge_of_mult_pos hw
  rw [betweenb_iff] at he0b he1b
  have he0 : e0.1 = n ∧ e0.2.1 = n := by
    rcases he0b with h | h <;> exact h
  have hc0 : edgeContrib n e0 = 2 := by
    unfold edgeContrib
    rw [if_pos he0.1, if_pos he0.2]
  have hc1 : 1 ≤ edgeContrib n e1 := by
    unfold edgeContrib
    rcases he1b with ⟨h1, h2⟩ | ⟨h1, h2⟩
    · rw [if_pos h1]
      omega
    · rw [if_pos h2]
      omega
  have hne : e0 ≠ e1 := by
    intro hcontra
    rcases he1b with ⟨h1, h2⟩ | ⟨h1, h2⟩
    · apply hwn
      rw [← h2, ← hcontra]
      exact he0.2
    · apply hwn
      rw [← h1, ← hcontra]
      exact he0.1
  have hpair := pair_le_sum_map g.edges (edgeContrib n) e0 e1 he0m he1m hne
  unfold degree at hdeg
  omega

theorem firstWeight_eq_weightSum {g : MGraph} {u v : Nat}
    (h : edgeMultiplicity g u v = 1) :
    firstWeightBetween g u v = weightSumBetween g u v := by
  unfold edgeMultiplicity at h
  obtain ⟨e, he⟩ := List.length_eq_one.mp h
  unfold firstWeightBetween weightSumBetween
  rw [he]
  simp

theorem seriesPhase_sound {g g' : MGraph} {a b : Nat} (hwf : g.WFm)
    (hbe : bundles g = []) (h : seriesPhase g a b = some (.ok g')) :
    ReduceRule a b g g' ∧ g'.WFm ∧ graphMeasure g' < graphMeasure g := by
  have hmle := edgeMultiplicity_le_one_of_no_bundles hbe
  unfold seriesPhase at h
  cases hfind : findSeriesNode g a b with
  | none =>
    rw [hfind] at h
    exact absurd h (by simp)
  | some n =>
    rw [hfind] at h
    unfold findSeriesNode at hfind
    have hpred := List.find?_some hfind
    have hmem := List.mem_of_find?_eq_some hfind
    simp only [Bool.and_eq_true, decide_eq_true_eq] at hpred
    obtain ⟨⟨hna, hnbterm⟩, hdeg⟩ := hpred
    dsimp only at h
    by_cases hlen2 : (neighborsDistinct g n).length = 2
    · rw [if_pos hlen2] at h
      obtain ⟨u, v, hnbl⟩ := List.length_eq_two.mp hlen2
      rw [hnbl] at h
      simp only [List.headI, List.getD_cons_succ, List.getD_cons_zero] at h
      have hu_mem : u ∈ neighborsDistinct g n := by
        rw [hnbl]
        simp
      have hv_mem : v ∈ neighborsDistinct g n := by
        rw [hnbl]
        simp
      have hmu : 0 < edgeMultiplicity g n u := by
        have hu := hu_mem
        unfold neighborsDistinct at hu
        simp only [List.mem_filter, decide_eq_true_eq] at hu
        exact hu.2
      have hmv : 0 < edgeMultiplicity g n v := by
        have hv := hv_mem
        unfold neighborsDistinct at hv
        simp only [List.mem_filter, decide_eq_true_eq] at hv
        exact hv.2
      have hu_nodes : u ∈ g.nodes := by
        have hu := hu_mem
        unfold neighborsDistinct at hu
        exact (List.mem_filter.mp hu).1
      have hv_nodes : v ∈ g.nodes := by
        have hv := hv_mem
        unfold neighborsDistinct at hv
        exact (List.mem_filter.mp hv).1
      have huv : u ≠ v := by
        have hnd : (neighborsDistinct g n).Nodup := hwf.1.filter _
        rw [hnbl] at hnd
        simpa using hnd
      have hnu : n ≠ u := by
        intro hcontra
        subst hcontra
        exact not_self_neighbor hdeg hmu hmv (Ne.symm huv)
      have hnv : n ≠ v := by
        intro hcontra
        subst hcontra
        exact not_self_neighbor hdeg hmv hmu huv
      have hmu1 : edgeMultiplicity g n u = 1 := le_antisymm (hmle n u) hmu
      have hmv1 : edgeMultiplicity g n v = 1 := le_antisymm (hmle n v) hmv
      have hc1 : firstWeightBetween g u n = weightSumBetween g n u := by
        rw [firstWeightBetween_comm]
        exact firstWeight_eq_weightSum hmu1
      have hc2 : firstWeightBetween g n v = weightSumBetween g n v :=
        firstWeight_eq_weightSum hmv1
      rw [hc1, hc2] at h
      by_cases hz : weightSumBetween g n u = 0 ∨ weightSumBetween g n v = 0
          ∨ 1 / weightSumBetween g n u + 1 / weightSumBetween g n v = 0
      · rw [if_pos hz] at h
        exact absurd h (by simp)
      · rw [if_neg hz] at h
        have hg' : g' = ⟨(removeNode g n).nodes,
            (removeNode g n).edges ++ [(u, v,
              1 / (1 / weightSumBetween g n u
                + 1 / weightSumBetween g n v))]⟩ := by
          injection h with h1
          injection h1 with h2
          exact h2.symm
        refine ⟨ReduceRule.series g g' n u v hna hnbterm hmem hdeg huv
          hmu1 hmv1 ?_ ?_, ?_, ?_⟩
        · rw [hg']
        · rw [hg']
        · rw [hg']
          constructor
          · exact hwf.1.filter _
          · intro e he
            rcases List.mem_append.mp he with h1 | h1
            · unfold removeNode at h1
              rw [List.mem_filter] at h1
              obtain ⟨hmemE, hpredE⟩ := h1
              simp only [Bool.and_eq_true, decide_eq_true_eq] at hpredE
              have hends := hwf.2 e hmemE
              unfold removeNode
              constructor
              · rw [List.mem_filter]
                exact ⟨hends.1, by simp only [decide_eq_true_eq]; exact hpredE.1⟩
              · rw [List.mem_filter]
                exact ⟨hends.2, by simp only [decide_eq_true_eq]; exact hpredE.2⟩
            · rw [List.mem_singleton] at h1
              subst h1
              unfold removeNode
              constructor
              · rw [List.mem_filter]
                exact ⟨hu_nodes, by simp only [decide_eq_true_eq]; exact Ne.symm hnu⟩
              · rw [List.mem_filter]
                exact ⟨hv_nodes, by simp only [decide_eq_true_eq]; exact Ne.symm hnv⟩
        · rw [hg']
          unfold graphMeasure removeNode
          simp only [List.length_append, List.length_singleton]
          have hnlt : (g.nodes.filter (fun m => decide (m ≠ n))).length
              < g.nodes.length :=
            length_filter_lt _ _ n hmem (by simp)
          obtain ⟨e0, he0m, he0b⟩ := exists_edge_of_mult_pos hmu
          have he0pred : (decide (e0.1 ≠ n) && decide (e0.2.1 ≠ n)) = false := by
            rcases (betweenb_iff n u e0).mp he0b with ⟨h1, h2⟩ | ⟨h1, h2⟩
            · simp [h1]
            · simp [h2]
          have helt : (g.edges.filter
              (fun e => decide (e.1 ≠ n) && decide (e.2.1 ≠ n))).length
              < g.edges.length :=
            length_filter_lt _ _ e0 he0m he0pred
          omega
    · rw [if_neg hlen2] at h
      by_cases hlen1 : (neighborsDistinct g n).length = 1
      · rw [if_pos hlen1] at h
        have hg' : g' = removeNode g n := by
          injection h with h1
          injection h1 with h2
          exact h2.symm
        obtain ⟨w0, hnbl⟩ := List.length_eq_one.mp hlen1
        have hone : ∀ w₁ w₂ : Nat, 0 < edgeMultiplicity g n w₁ →
            0 < edgeMultiplicity g n w₂ → w₁ = w₂ := by
          intro w₁ w₂ hw1 hw2
          have m1 := mem_neighborsDistinct_of_mult_pos hwf hw1
          have m2 := mem_neighborsDistinct_of_mult_pos hwf hw2
          rw [hnbl, List.mem_singleton] at m1 m2
          rw [m1, m2]
        refine ⟨ReduceRule.prune g g' n hna hnbterm hmem hdeg hone ?_ ?_,
          ?_, ?_⟩
        · rw [hg']
        · rw [hg']
        · rw [hg']
          constructor
          · exact hwf.1.filter _
          · intro e he
            unfold removeNode at he ⊢
            rw [List.mem_filter] at he
            obtain ⟨hmemE, hpredE⟩ := he
            simp only [Bool.and_eq_true, decide_eq_true_eq] at hpredE
            have hends := hwf.2 e hmemE
            constructor
            · rw [List.mem_filter]
              exact ⟨hends.1, by simp only [decide_eq_true_eq]; exact hpredE.1⟩
            · rw [List.mem_filter]
              exact ⟨hends.2, by simp only [decide_eq_true_eq]; exact hpredE.2⟩
        · rw [hg']
          unfold graphMeasure removeNode
          have hnlt : (g.nodes.filter (fun m => decide (m ≠ n))).length
              < g.nodes.length :=
            length_filter_lt _ _ n hmem (by simp)
          have hele := List.length_filter_le
            (fun e => decide (e.1 ≠ n) && decide (e.2.1 ≠ n)) g.edges
          dsimp only
          omega
      · rw [if_neg hlen1] at h
        exact absurd h (by simp)

theorem reduceStep_sound {g g' : MGraph} {a b : Nat} (hwf : g.WFm)
    (h : reduceStep g a b = some (.ok g')) :
    Relation.ReflTransGen (ReduceRule a b) g g' ∧ g'.WFm ∧
      graphMeasure g' < graphMeasure g := by
  unfold reduceStep at h
  cases hpp : parallelPhase g with
  | some gp =>
    rw [hpp] at h
    have hgp : gp = g' := by
      injection h with h1
      injection h1
    subst hgp
    obtain ⟨hg', _⟩ := parallelPhase_eq_mergeAll hpp
    refine ⟨?_, parallelPhase_WFm hwf hpp, parallelPhase_measure hpp⟩
    rw [hg']
    exact mergeAll_chain a b g (bundles g) (bundles_nodup g)
      (fun p hp => (mem_bundles hp).1) (fun p hp => (mem_bundles hp).2)
  | none =>
    rw [hpp] at h
    obtain ⟨hr, hw, hm⟩ :=
      seriesPhase_sound hwf (parallelPhase_none_bundles hpp) h
    exact ⟨Relation.ReflTransGen.single hr, hw, hm⟩

theorem reduceStep_none {g : MGraph} {a b : Nat} (hwf : g.WFm)
    (h : reduceStep g a b = none) : ∀ g', ¬ ReduceRule a b g g' := by
  unfold reduceStep at h
  cases hpp : parallelPhase g with
  | some gp =>
    rw [hpp] at h
    exact absurd h (by simp)
  | none =>
    rw [hpp] at h
    have hbe := parallelPhase_none_bundles hpp
    have hmle := edgeMultiplicity_le_one_of_no_bundles hbe
    have hfind : findSeriesNode g a b = none := by
      cases hfind : findSeriesNode g a b with
      | none => rfl
      | some n =>
        exfalso
        unfold seriesPhase at h
        rw [hfind] at h
        unfold findSeriesNode at hfind
        have hpred := List.find?_some hfind
        simp only [Bool.and_eq_true, decide_eq_true_eq] at hpred
        obtain ⟨⟨hna, hnbterm⟩, hdeg⟩ := hpred
        have h1 := neighbors_len_pos hwf hdeg
        have h2 := neighbors_len_le_two hwf hdeg
        dsimp only at h
        have hcase : (neighborsDistinct g n).length = 1
            ∨ (neighborsDistinct g n).length = 2 := by omega
        rcases hcase with hc | hc
        · rw [if_neg (by omega), if_pos hc] at h
          exact absurd h (by simp)
        · rw [if_pos hc] at h
          by_cases hz : firstWeightBetween g (neighborsDistinct g n).headI n = 0
              ∨ firstWeightBetween g n ((neighborsDistinct g n).getD 1 0) = 0
              ∨ 1 / firstWeightBetween g (neighborsDistinct g n).headI n
                + 1 / firstWeightBetween g n ((neighborsDistinct g n).getD 1 0)
                = 0
          · rw [if_pos hz] at h
            exact absurd h (by simp)
          · rw [if_neg hz] at h
            exact absurd h (by simp)
    intro g' hr
    cases hr with
    | parallel u v hmult _ _ =>
      have := hmle u v
      omega
    | series n u v hna hnbterm hmem hdeg _ _ _ _ _ =>
      unfold findSeriesNode at hfind
      rw [List.find?_eq_none] at hfind
      have hn := hfind n hmem
      simp only [Bool.and_eq_true, decide_eq_true_eq, not_and] at hn
      exact hn ⟨hna, hnbterm⟩ hdeg
    | prune n hna hnbterm hmem hdeg _ _ _ =>
      unfold findSeriesNode at hfind
      rw [List.find?_eq_none] at hfind
      have hn := hfind n hmem
      simp only [Bool.and_eq_true, decide_eq_true_eq, not_and] at hn
      exact hn ⟨hna, hnbterm⟩ hdeg

theorem reduceLoop_spec (a b : Nat) (fuel : Nat) :
    ∀ g G : MGraph, g.WFm → graphMeasure g < fuel →
      reduceLoop a b fuel g = .ok G →
      Relation.ReflTransGen (ReduceRule a b) g G ∧ G.WFm ∧
        reduceStep G a b = none := by
  induction fuel with
  | zero =>
    intro g G _ hf _
    omega
  | succ f ih =>
    intro g G hwf hf h
    rw [reduceLoop] at h
    cases hstep : reduceStep g a b with
    | none =>
      rw [hstep] at h
      dsimp only at h
      have hgG : g = G := by injection h
      subst hgG
      exact ⟨Relation.ReflTransGen.refl, hwf, hstep⟩
    | some r =>
      cases r with
      | error e =>
        rw [hstep] at h
        dsimp only at h
        exact absurd h (by simp)
      | ok g1 =>
        rw [hstep] at h
        dsimp only at h
        obtain ⟨hc, hw1, hm1⟩ := reduceStep_sound hwf hstep
        obtain ⟨hc2, hw2, hn2⟩ := ih g1 G hw1 (by omega) h
        exact ⟨hc.trans hc2, hw2, hn2⟩

/-- **C8**: on every well-formed multigraph, `is_sp_reducible` reaches —
by repeatedly applying exactly the two specification rewrite rules (the
parallel-bundle merge, and the series contraction of a non-terminal
degree-2 node with two distinct neighbours, a single-neighbour degree-2
node being pruned) — a graph `G` to which no rule applies any more, and
it reports a surviving weight if and only if `G` has exactly 2 nodes and
1 edge connecting the two terminals, the reported weight being that
surviving edge's weight; otherwise it reports not reducible (`none`). -/
theorem is_sp_reducible_spec (g : MGraph) (a b : Nat) (hwf : g.WFm)
    (r : Option ℚ) (h : is_sp_reducible g a b = .ok r) :
    ∃ G : MGraph, Relation.ReflTransGen (ReduceRule a b) g G ∧
      (∀ g', ¬ ReduceRule a b G g') ∧
      (r.isSome = true ↔ (G.nodes.length = 2 ∧ G.edges.length = 1 ∧
        0 < edgeMultiplicity G a b)) ∧
      (∀ w, r = some w → ∃ e, G.edges = [e] ∧ betweenb a b e = true ∧
        e.2.2 = w) := by
  unfold is_sp_reducible at h
  cases hloop : reduceLoop a b (graphMeasure g + 1) g with
  | error e =>
    rw [hloop, exceptBind_error] at h
    exact absurd h (by simp)
  | ok G =>
    rw [hloop, exceptBind_ok] at h
    obtain ⟨hchain, hwfG, hnone⟩ :=
      reduceLoop_spec a b (graphMeasure g + 1) g G hwf (by omega) hloop
    refine ⟨G, hchain, reduceStep_none hwfG hnone, ?_, ?_⟩
    · by_cases hcond : G.nodes.length = 2 ∧ G.edges.length = 1
          ∧ 0 < edgeMultiplicity G a b
      · rw [if_pos hcond] at h
        have hr : r = some (firstWeightBetween G a b) := by
          injection h with h1
          exact h1.symm
        rw [hr]
        exact iff_of_true rfl hcond
      · rw [if_neg hcond] at h
        have hr : r = none := by
          injection h with h1
          exact h1.symm
        rw [hr]
        exact iff_of_false (by simp) hcond
    · intro w hw
      by_cases hcond : G.nodes.length = 2 ∧ G.edges.length = 1
          ∧ 0 < edgeMultiplicity G a b
      · rw [if_pos hcond] at h
        have hr : r = some (firstWeightBetween G a b) := by
          injection h with h1
          exact h1.symm
        rw [hr] at hw
        have hwval : w = firstWeightBetween G a b := by
          injection hw with h1
          exact h1.symm
        obtain ⟨e, he⟩ := List.length_eq_one.mp hcond.2.1
        have hb : betweenb a b e = true := by
          by_contra hb
          rw [Bool.not_eq_true] at hb
          have hm := hcond.2.2
          unfold edgeMultiplicity at hm
          rw [he] at hm
          simp [List.filter_cons, hb] at hm
        refine ⟨e, he, hb, ?_⟩
        rw [hwval]
        unfold firstWeightBetween
        rw [he]
        simp [List.filter_cons, hb]
      · rw [if_neg hcond] at h
        have hr : r = none := by
          injection h with h1
          exact h1.symm
        rw [hr] at hw
        exact absurd hw (by simp)

/-- Witness for C8: the two-node, one-edge graph `0 —(5)— 1` is already
reduced, `is_sp_reducible` returns its weight, and the theorem applies. -/
theorem is_sp_reducible_spec_witness :
    (MGraph.mk [0, 1] [(0, 1, 5)]).WFm ∧
      is_sp_reducible (MGraph.mk [0, 1] [(0, 1, 5)]) 0 1 = .ok (some 5) ∧
      ∃ G : MGraph,
        Relation.ReflTransGen (ReduceRule 0 1)
          (MGraph.mk [0, 1] [(0, 1, 5)]) G ∧
        (∀ g', ¬ ReduceRule 0 1 G g') ∧
        ((some (5 : ℚ)).isSome = true ↔ (G.nodes.length = 2 ∧
          G.edges.length = 1 ∧ 0 < edgeMultiplicity G 0 1)) ∧
        (∀ w, some (5 : ℚ) = some w → ∃ e, G.edges = [e] ∧
          betweenb 0 1 e = true ∧ e.2.2 = w) := by
  refine ⟨⟨by decide, by decide⟩, rfl, ?_⟩
  exact is_sp_reducible_spec (MGraph.mk [0, 1] [(0, 1, 5)]) 0 1
    ⟨by decide, by decide⟩ (some 5) rfl

/-! ## `sp_graph_exhaustive.py`: the `solve` pipeline

`generate_topologies` (lines 93-125) filters its candidate multigraphs
through `networkx.is_connected` and `networkx.is_isomorphic`; the
template list it returns is passed to the embedded `solve` as an
explicit argument (the ranking claim quantifies over every template
list, so nothing is lost by abstracting the generator). -/

/-- `GraphTopology` instantiated at the integer-labelled multigraphs of
the exhaustive engine. -/
structure MTopology where
  graph : MGraph
  terminal_a : Nat
  terminal_b : Nat
  internal_nodes : List Nat
deriving DecidableEq, Repr

/-- `itertools.combinations(l, 2)` in iteration order. -/
def combinations2 {α : Type} : List α → List (α × α)
  | [] => []
  | x :: rest => rest.map (fun y => (x, y)) ++ combinations2 rest

/-- Assign the permuted capacitor values to the template's edges in
order (`G[u][v][k]['capacity'] = cap_perm[i]`, lines 53-55 of
`sp_graph_exhaustive.py`; inside `solve` the permutation length always
equals the template's edge count). -/
def assignCaps (template : MGraph) (perm : List ℚ) : MGraph :=
  ⟨template.nodes,
    List.zipWith (fun (e : Nat × Nat × ℚ) c => (e.1, e.2.1, c))
      template.edges perm⟩

/-- The body of the triple `for` loop of `solve` (lines 43-80) over the
flattened list of (template, terminal pair, permutation) items,
threading `seen_values` and the accumulated solutions; an exception
raised by `is_sp_reducible` or `create_solution` propagates out of
`solve`, which installs no handler. -/
def solve_fold (num_edges : Nat) (target : ℚ) :
    List (MGraph × (Nat × Nat) × List ℚ) →
      List ℚ × List (Solution MTopology) →
      Except PyError (List ℚ × List (Solution MTopology))
  | [], st => .ok st
  | (tmpl, ab, perm) :: rest, (seen, solutions) => do
    let G := assignCaps tmpl perm
    let ceqOpt ← is_sp_reducible G ab.1 ab.2
    match ceqOpt with
    | none => solve_fold num_edges target rest (seen, solutions)
    | some ceq =>
      if seen.any (fun v => decide (|ceq - v| < 1 / 10 ^ 15)) then
        solve_fold num_edges target rest (seen, solutions)
      else do
        let internal := tmpl.nodes.filter
          (fun n => decide (n ≠ ab.1) && decide (n ≠ ab.2))
        let topo : MTopology := ⟨G, ab.1, ab.2, internal⟩
        let expression := "Graph(V=" ++ toString tmpl.nodes.length
          ++ ", E=" ++ toString num_edges ++ ")"
        let sol ← create_solution topo ceq target 5 expression
        solve_fold num_edges target rest
          (seen ++ [ceq], solutions ++ [sol])

/-- `solve` from `sp_graph_exhaustive.py` (lines 22-91), with the
`generate_topologies` output supplied as `topologies`: enumerate
(template, terminal pair, capacitor permutation) items, reduce each,
deduplicate by equivalent capacitance, rank, truncate. -/
def solve (capacitors : List ℚ) (target : ℚ) (max_results : Nat)
    (topologies : List MGraph) :
    Except PyError (List (Solution MTopology)) := do
  let items := topologies.flatMap (fun t =>
    (combinations2 t.nodes).flatMap (fun ab =>
      capacitors.permutations.map (fun perm => (t, ab, perm))))
  let st ← solve_fold capacitors.length target items ([], [])
  .ok ((rank_solutions st.2).take max_results)

/-- **C3**: every solution list returned by any of the three engines —
`find_best_sp_solutions`, `heuristic_search` and the exhaustive `solve`
— is sorted ascending by `absolute_error` (so adjacent pairs satisfy
`solutions[i].absolute_error <= solutions[i+1].absolute_error`) and has
length at most the requested `top_k` / `max_results`. -/
theorem engines_ranking_invariant :
    (∀ (capacitors : List ℚ) (target tolerance : ℚ) (top_k : Nat)
        (deduplicate : Bool) (sols : List (Solution SPNode)),
        find_best_sp_solutions capacitors target tolerance top_k deduplicate
          = .ok sols →
        List.Sorted errLE sols ∧ sols.length ≤ top_k) ∧
    (∀ (σ : Type) (rng : RNGOps σ) (solver : SolverT) (capacitors : List ℚ)
        (target : ℚ) (iterations max_internal_nodes seed : Nat)
        (tolerance : ℚ) (top_k : Nat)
        (sols : List (Solution (GraphTopology SGraph))),
        heuristic_search rng solver capacitors target iterations
          max_internal_nodes seed tolerance top_k = .ok sols →
        List.Sorted errLE sols ∧ sols.length ≤ top_k) ∧
    (∀ (capacitors : List ℚ) (target : ℚ) (max_results : Nat)
        (topologies : List MGraph) (sols : List (Solution MTopology)),
        solve capacitors target max_results topologies = .ok sols →
        List.Sorted errLE sols ∧ sols.length ≤ max_results) := by
  refine ⟨?_, ?_, ?_⟩
  · intro capacitors target tolerance top_k deduplicate sols h
    rw [find_best_sp_solutions] at h
    by_cases h1 : target ≤ 0
    · rw [if_pos h1] at h
      exact absurd h (by simp)
    rw [if_neg h1] at h
    by_cases h2 : tolerance < 0
    · rw [if_pos h2] at h
      exact absurd h (by simp)
    rw [if_neg h2] at h
    dsimp only at h
    cases htop : enumerate_sp_topologies capacitors with
    | error e =>
      rw [htop, exceptBind_error] at h
      exact absurd h (by simp)
    | ok tops =>
      rw [htop, exceptBind_ok] at h
      cases hfold : find_best_fold
          ((List.range capacitors.length).map (fun i => "C" ++ toString (i + 1)))
          target tolerance deduplicate tops ([], []) with
      | error e =>
        rw [hfold, exceptBind_error] at h
        exact absurd h (by simp)
      | ok st =>
        rw [hfold, exceptBind_ok] at h
        have h3 : (rank_solutions st.2).take top_k = sols := by
          injection h
        rw [← h3]
        exact ⟨List.Pairwise.sublist (List.take_sublist top_k _)
            (rank_solutions_sorted st.2),
          List.length_take_le top_k _⟩
  · intro σ rng solver capacitors target iterations max_internal_nodes seed
      tolerance top_k sols h
    rw [heuristic_search] at h
    by_cases h1 : target ≤ 0
    · rw [if_pos h1] at h
      exact absurd h (by simp)
    rw [if_neg h1] at h
    by_cases h2 : iterations < 1
    · rw [if_pos h2] at h
      exact absurd h (by simp)
    rw [if_neg h2] at h
    by_cases h3 : capacitors.isEmpty = true
    · rw [if_pos h3] at h
      exact absurd h (by simp)
    rw [if_neg h3] at h
    dsimp only at h
    cases hloop : hs_loop rng solver capacitors target tolerance
        max_internal_nodes iterations (rng.fromSeed seed) [] with
    | error e =>
      rw [hloop, exceptBind_error] at h
      exact absurd h (by simp)
    | ok pool =>
      rw [hloop, exceptBind_ok] at h
      have h4 : (pool.insertionSort errLE).take top_k = sols := by
        injection h
      rw [← h4]
      exact ⟨List.Pairwise.sublist (List.take_sublist top_k _)
          (List.sorted_insertionSort errLE pool),
        List.length_take_le top_k _⟩
  · intro capacitors target max_results topologies sols h
    rw [solve] at h
    cases hfold : solve_fold capacitors.length target
        (topologies.flatMap (fun t =>
          (combinations2 t.nodes).flatMap (fun ab =>
            capacitors.permutations.map (fun perm => (t, ab, perm)))))
        ([], []) with
    | error e =>
      rw [hfold, exceptBind_error] at h
      exact absurd h (by simp)
    | ok st =>
      rw [hfold, exceptBind_ok] at h
      have h3 : (rank_solutions st.2).take max_results = sols := by
        injection h
      rw [← h3]
      exact ⟨List.Pairwise.sublist (List.take_sublist max_results _)
          (rank_solutions_sorted st.2),
        List.length_take_le max_results _⟩

/-- Witness for C3: each engine at concrete inputs on which it returns a
solution list. -/
theorem engines_ranking_invariant_witness :
    (∃ sols : List (Solution SPNode),
      find_best_sp_solutions [1] 1 5 1 true = .ok sols ∧
      List.Sorted errLE sols ∧ sols.length ≤ 1) ∧
    (∃ sols : List (Solution (GraphTopology SGraph)),
      heuristic_search unitRNG zeroSolver [1] 1 1 0 0 5 10 = .ok sols ∧
      List.Sorted errLE sols ∧ sols.length ≤ 10) ∧
    (∃ sols : List (Solution MTopology),
      solve [1] 1 10 [] = .ok sols ∧ List.Sorted errLE sols ∧
      sols.length ≤ 10) := by
  refine ⟨?_, ?_, ?_⟩
  · have hok : ∃ sols, find_best_sp_solutions [1] 1 5 1 true = .ok sols :=
      ⟨_, rfl⟩
    obtain ⟨sols, hsols⟩ := hok
    obtain ⟨hs1, hs2⟩ := engines_ranking_invariant.1 [1] 1 5 1 true sols hsols
    exact ⟨sols, hsols, hs1, hs2⟩
  · have hok : ∃ sols, heuristic_search unitRNG zeroSolver [1] 1 1 0 0 5 10
        = .ok sols := by
      rw [heuristic_search, if_neg (by norm_num), if_neg (by norm_num),
        if_neg (by simp)]
      obtain ⟨pool, hpool⟩ := hs_loop_ok unitRNG zeroSolver [1] 1 5 0
        (by simp) (by norm_num) 1 (unitRNG.fromSeed 0) []
      dsimp only
      rw [hpool, exceptBind_ok]
      exact ⟨_, rfl⟩
    obtain ⟨sols, hsols⟩ := hok
    obtain ⟨hs1, hs2⟩ := engines_ranking_invariant.2.1 Unit unitRNG zeroSolver
      [1] 1 1 0 0 5 10 sols hsols
    exact ⟨sols, hsols, hs1, hs2⟩
  · obtain ⟨hs1, hs2⟩ := engines_ranking_invariant.2.2 [1] 1 10 [] [] rfl
    exact ⟨[], rfl, hs1, hs2⟩
